import Mathlib

/-!
Verification of the key identity/relation/diff engine of `src/libelektra/keytest.c`
and of the growable container contracts exercised by `tests/ctest/test_vstack.c`
and `tests/ctest/test_vheap.c`.

Key names are C strings modelled as `List Char` (the terminating NUL is implicit
and never part of the list).  A `Key` models the C `struct _Key`; a nullable
`Key *` argument is modelled as `Option Key`.
-/

namespace Elektra

/-- Test whether `strncmp(a, b, n) == 0` for C strings `a`, `b` (lists without the
terminating NUL; the implicit terminator is compared when a list runs out). -/
def strncmpZ : List Char → List Char → Nat → Bool
  | _, _, 0 => true
  | [], [], _ + 1 => true
  | [], _ :: _, _ + 1 => false
  | _ :: _, [], _ + 1 => false
  | a :: as, b :: bs, n + 1 => a == b && (a == '\x00' || strncmpZ as bs n)

/-- Read position `i` of a C string: characters of the list, then the implicit
NUL terminator (and, as a model idealisation, NUL beyond it). -/
def cstr (l : List Char) (i : Nat) : Char := l.getD i '\x00'

/-- Well-formedness of an escaped key name: the escape character `\` is always
followed by another character (no dangling escape at the end of the name). -/
def wfName : List Char → Bool
  | [] => true
  | a :: r =>
    if a = '\\' then
      match r with
      | [] => false
      | _ :: r2 => wfName r2
    else wfName r

/-- Prepend a character to the first segment of a segment list. -/
def consHead (c : Char) : List (List Char) → List (List Char)
  | [] => [[c]]
  | s :: t => (c :: s) :: t

/-- Modelled from the spec: decomposition of an escaped name into its raw
segments ("unescapedSegments"); segments are separated by an unescaped `/` and
a `\`-escaped character is taken literally.  The C helpers producing the
unescaped form (`elektraUnescapeKeyName` and friends in `keyname.c` /
`keyhelpers.c`) are not among the sources. -/
def segs : List Char → List (List Char)
  | [] => [[]]
  | a :: r =>
    if a = '/' then [] :: segs r
    else if a = '\\' then
      match r with
      | [] => [['\\']]
      | c :: r2 => consHead c (segs r2)
    else consHead a (segs r)

/-- Join segments into the unescaped-name byte buffer: every segment is
followed by a NUL byte (so the buffer ends in NUL and its length is the
unescaped name size). -/
def nulJoin : List (List Char) → List Char
  | [] => []
  | s :: r => s ++ '\x00' :: nulJoin r

/-- The unescaped-name buffer of an escaped name. -/
def unameOf (l : List Char) : List Char := nulJoin (segs l)

/-- Modelled from the spec: the `keyswitch_t` flag constants of `kdb.h` (the
header is not among the sources).  The spec requires seven orthogonal field
bits plus a `NullMismatch` bit distinct from all of them; they are modelled as
distinct powers of two. -/
def KEY_NAME : Nat := 1
def KEY_VALUE : Nat := 2
def KEY_OWNER : Nat := 4
def KEY_COMMENT : Nat := 8
def KEY_UID : Nat := 16
def KEY_GID : Nat := 32
def KEY_MODE : Nat := 64
def KEY_NULL : Nat := 65536

/-- Modelled from the spec: the sync bit of the key flag field (`KEY_FLAG_SYNC`
of `kdbprivate.h`, not among the sources); the dirty flag is a single bit
packed into the wider flag field. -/
def KEY_FLAG_SYNC : Nat := 1

/-- Model of `struct _Key`: escaped name (`none` models a NULL `key->key`
pointer), flag field, names of present metadata entries, comment, owner, value
bytes and the permission attributes. -/
structure Key where
  key : Option (List Char)
  flags : Nat
  metaNames : List (List Char)
  comment : List Char
  owner : List Char
  value : List Nat
  uid : Nat
  gid : Nat
  mode : Nat
deriving DecidableEq

/-- Modelled from the spec: `keyName` (from `keyname.c`, not among the
sources) returns the escaped name, or the empty string for a key whose name is
absent. -/
def keyName (k : Key) : List Char := k.key.getD []

/-- Modelled from the spec: `keyGetNameSize` (from `keyname.c`, not among the
sources) returns `-1` on a NULL key and otherwise the length of the escaped
name plus one for the terminating NUL (`1` for an absent name). -/
def keyGetNameSize : Option Key → Int
  | none => -1
  | some k =>
    match k.key with
    | none => 1
    | some n => (n.length : Int) + 1

/-- Modelled from the spec: presence lookup of a metadata entry
(`keyGetMeta` of `keymeta.c` is not among the sources); `true` models a
non-NULL result. -/
def keyHasMeta (k : Key) (name : List Char) : Bool := k.metaNames.contains name

/-- keyClearSync of keytest.c: clear the sync flag by masking the flag field
with the complement of `KEY_FLAG_SYNC` (32-bit int semantics), returning the
new flag value, paired with the updated key (`-1` and no change on NULL). -/
def keyClearSync : Option Key → Int × Option Key
  | none => (-1, none)
  | some k =>
    let newFlags : Nat := k.flags &&& (2 ^ 32 - 1 - KEY_FLAG_SYNC)
    ((newFlags : Int), some { k with flags := newFlags })

/-- keyNeedSync of keytest.c: whether the sync flag is set. -/
def keyNeedSync : Option Key → Int
  | none => -1
  | some k => if k.flags &&& KEY_FLAG_SYNC = KEY_FLAG_SYNC then 1 else 0

/-- The namespace tags of the spec. -/
inductive ElektraNamespace where
  | system
  | user
  | cascading
  | spec
  | proc
  | dir
deriving DecidableEq

/-- Modelled from the spec: the namespace of a key name is derived
deterministically from the first segment of the escaped name; absence of a
recognized prefix means `cascading` (the C helpers `keyNameIsUser` etc. of
`keyname.c` are not among the sources). -/
def nsOf (n : List Char) : ElektraNamespace :=
  let fs := (segs n).headD []
  if fs = "system".toList then .system
  else if fs = "user".toList then .user
  else if fs = "spec".toList then .spec
  else if fs = "proc".toList then .proc
  else if fs = "dir".toList then .dir
  else .cascading

/-- Modelled from the spec: `keyNameIsUser` of `keyname.c` (not among the
sources): whether the name lies in the user namespace. -/
def keyNameIsUser (n : List Char) : Int := if nsOf n = .user then 1 else 0

/-- Modelled from the spec: `keyNameIsSystem` of `keyname.c` (not among the
sources). -/
def keyNameIsSystem (n : List Char) : Int := if nsOf n = .system then 1 else 0

/-- Modelled from the spec: `keyNameIsSpec`. -/
def keyNameIsSpec (n : List Char) : Int := if nsOf n = .spec then 1 else 0

/-- Modelled from the spec: `keyNameIsProc`. -/
def keyNameIsProc (n : List Char) : Int := if nsOf n = .proc then 1 else 0

/-- Modelled from the spec: `keyNameIsDir`. -/
def keyNameIsDir (n : List Char) : Int := if nsOf n = .dir then 1 else 0

/-- keyIsUser of keytest.c. -/
def keyIsUser : Option Key → Int
  | none => -1
  | some k =>
    match k.key with
    | none => 0
    | some n => keyNameIsUser n

/-- keyIsSystem of keytest.c. -/
def keyIsSystem : Option Key → Int
  | none => -1
  | some k =>
    match k.key with
    | none => 0
    | some n => keyNameIsSystem n

/-- keyIsSpec of keytest.c. -/
def keyIsSpec : Option Key → Int
  | none => -1
  | some k =>
    match k.key with
    | none => 0
    | some n => keyNameIsSpec n

/-- keyIsProc of keytest.c. -/
def keyIsProc : Option Key → Int
  | none => -1
  | some k =>
    match k.key with
    | none => 0
    | some n => keyNameIsProc n

/-- keyIsDir of keytest.c. -/
def keyIsDir : Option Key → Int
  | none => -1
  | some k =>
    match k.key with
    | none => 0
    | some n => keyNameIsDir n

/-- keyIsBelow of keytest.c: size guard, `strncmp` over the base name, then the
separator check at the base-name boundary. -/
def keyIsBelow (key check : Option Key) : Int :=
  match key, check with
  | some k, some c =>
    let keyname := keyName k
    let checkname := keyName c
    let keysize := keyGetNameSize (some k)
    let checksize := keyGetNameSize (some c)
    if keysize > checksize + 1 then 0
    else if strncmpZ keyname checkname (keysize - 1).toNat = false then 0
    else if ¬ cstr checkname (keysize - 1).toNat = '/' then 0
    else 1
  | _, _ => -1

/-- keyIsBelowOrSame of keytest.c (`strcmp` equality modelled as list equality
of the NUL-free names). -/
def keyIsBelowOrSame (key check : Option Key) : Int :=
  match key, check with
  | some k, some c =>
    if keyIsBelow (some k) (some c) ≠ 0 then 1
    else if keyName k = keyName c then 1
    else 0
  | _, _ => -1

/-- keyIsDirectBelow of keytest.c: below, and the first NUL of the unescaped
check name at or after the base's unescaped size is the buffer's final NUL
(`strchr(checkname + keysize, 0) == checkname + checksize - 1`). -/
def keyIsDirectBelow (key check : Option Key) : Int :=
  match key, check with
  | some k, some c =>
    if keyIsBelow (some k) (some c) = 0 then 0
    else
      let checkname := unameOf (keyName c)
      let keysize := (unameOf (keyName k)).length
      let checksize := checkname.length
      if keysize + (checkname.drop keysize).findIdx (fun x => x == '\x00')
          = checksize - 1 then 1
      else 0
  | _, _ => -1

/-- Modelled from the spec: `keyCmp` (from `key.c`, not among the sources) as
used by `keyRel`: zero exactly on byte-exact equality of the escaped names. -/
def keyCmp (key check : Option Key) : Int :=
  match key, check with
  | some k, some c => if keyName k = keyName c then 0 else 1
  | _, _ => -1

/-- keyRel of keytest.c: the first-match cascade over same / direct below /
below / same-namespace, with `-1` for NULL keys and keys without a name. -/
def keyRel (key check : Option Key) : Int :=
  match key, check with
  | some k, some c =>
    match k.key, c.key with
    | some _, some _ =>
      if keyCmp (some k) (some c) = 0 then 0
      else if keyIsDirectBelow (some k) (some c) ≠ 0 then 1
      else if keyIsBelow (some k) (some c) ≠ 0 then 2
      else if keyIsUser (some k) ≠ 0 ∧ keyIsUser (some c) ≠ 0 then -3
      else if keyIsSystem (some k) ≠ 0 ∧ keyIsSystem (some c) ≠ 0 then -3
      else -2
    | _, _ => -1
  | _, _ => -1

/-- keyIsInactive of keytest.c: `-1` on NULL or empty name, else scan the
segments of the name (the C level iterator `keyNameGetOneLevel` of
`keyhelpers.c` is not among the sources and is modelled from the spec through
`segs`); a non-empty segment starting with `.` makes the key inactive. -/
def inactiveLoop : List (List Char) → Int
  | [] => 0
  | s :: r => if 0 < s.length ∧ s.headD '\x00' = '.' then 1 else inactiveLoop r

/-- keyIsInactive of keytest.c, see `inactiveLoop`. -/
def keyIsInactive : Option Key → Int
  | none => -1
  | some k =>
    let p := keyName k
    if p = [] then -1
    else inactiveLoop (segs p)

/-- keyIsBinary of keytest.c: presence of the metadata entry `binary`. -/
def keyIsBinary : Option Key → Int
  | none => -1
  | some k => if keyHasMeta k "binary".toList then 1 else 0

/-- keyIsString of keytest.c: absence of the metadata entry `binary`. -/
def keyIsString : Option Key → Int
  | none => -1
  | some k => if keyHasMeta k "binary".toList then 0 else 1

/-- keyCompare of keytest.c: accumulate the difference bits in source order
(uid, gid, mode, name size, name content, comment, owner, value size, value
bytes); `memcmp(value1, value2, size1)` is modelled as comparison of the first
`size1` bytes. -/
def keyCompare (key1 key2 : Option Key) : Nat :=
  match key1, key2 with
  | none, none => 0
  | none, some _ => KEY_NULL
  | some _, none => KEY_NULL
  | some k1, some k2 =>
    let r0 : Nat := 0
    let r1 := if k1.uid ≠ k2.uid then r0 ||| KEY_UID else r0
    let r2 := if k1.gid ≠ k2.gid then r1 ||| KEY_GID else r1
    let r3 := if k1.mode ≠ k2.mode then r2 ||| KEY_MODE else r2
    let r4 := if keyGetNameSize (some k1) ≠ keyGetNameSize (some k2) then r3 ||| KEY_NAME else r3
    let r5 := if keyName k1 ≠ keyName k2 then r4 ||| KEY_NAME else r4
    let r6 := if k1.comment ≠ k2.comment then r5 ||| KEY_COMMENT else r5
    let r7 := if k1.owner ≠ k2.owner then r6 ||| KEY_OWNER else r6
    let r8 := if k1.value.length ≠ k2.value.length then r7 ||| KEY_VALUE else r7
    let r9 := if k1.value.take k1.value.length ≠ k2.value.take k1.value.length then r8 ||| KEY_VALUE else r8
    r9

/-- Specification-side strict boundary-respecting prefix relation on escaped
names: the check name is longer, agrees with the base name on the base's
length, and carries the separator at the boundary. -/
def specBelow (b c : List Char) : Prop :=
  b.length < c.length ∧ c.take b.length = b ∧ cstr c b.length = '/'

instance (b c : List Char) : Decidable (specBelow b c) := by
  unfold specBelow; infer_instance

/-- The six discrete outcomes of the relation function, as named by the spec. -/
inductive RelOutcome where
  | invalid
  | same
  | directChild
  | descendant
  | sameHierarchyUnrelated
  | unrelated
deriving DecidableEq

/-- The integer encoding the spec assigns to each relation outcome. -/
def RelOutcome.code : RelOutcome → Int
  | .invalid => -1
  | .same => 0
  | .directChild => 1
  | .descendant => 2
  | .sameHierarchyUnrelated => -3
  | .unrelated => -2

/-- Specification-side relation function, word for word after the spec's
precedence list: invalid on null or nameless keys, then byte-exact equality,
direct child (below with exactly one more segment), descendant, shared
user/system namespace, otherwise unrelated. -/
def relSpec (base check : Option Key) : RelOutcome :=
  match base, check with
  | some bk, some ck =>
    match bk.key, ck.key with
    | some nb, some nc =>
      if nb = nc then .same
      else if specBelow nb nc ∧ (segs nc).length = (segs nb).length + 1 then .directChild
      else if specBelow nb nc then .descendant
      else if (nsOf nb = .user ∧ nsOf nc = .user) ∨ (nsOf nb = .system ∧ nsOf nc = .system) then
        .sameHierarchyUnrelated
      else .unrelated
    | _, _ => .invalid
  | _, _ => .invalid

/-- Name hygiene of a possibly-NULL key: a present name holds no NUL byte and
has no dangling escape character. -/
def keyNameOk : Option Key → Bool
  | none => true
  | some k =>
    match k.key with
    | none => true
    | some n => decide ('\x00' ∉ n) && wfName n

/-! ## The growable containers

The implementations (`vstack.c`, `vheap.c`) are not among the sources; they
are modelled from the spec (§4.3, §4.4) and from the capacity bookkeeping that
`test_vstack.c` / `test_vheap.c` assert: a full backing array doubles before
an insertion, and after a removal the capacity halves when the occupancy is at
most a quarter of the capacity and the capacity still exceeds the initial
capacity. -/

/-- Capacity before inserting into a container holding `count` of `size`
slots: double when full. -/
def growCap (size count : Nat) : Nat := if count = size then 2 * size else size

/-- Capacity after removing down to `newCount` elements: halve when occupancy
is at most a quarter and the capacity exceeds the initial capacity. -/
def shrinkCap (minSize size newCount : Nat) : Nat :=
  if minSize < size ∧ newCount ≤ size / 4 then size / 2 else size

/-- Modelled from the spec: the Vstack structure (`vstack.c` is not among the
sources): backing capacity, initial capacity, and the stored references (head
of the list = top of the stack). -/
structure Vstack where
  size : Nat
  minSize : Nat
  data : List Int
deriving DecidableEq

/-- Modelled from the spec: `elektraVstackInit` fails on a non-positive
initial capacity. -/
def elektraVstackInit (minSize : Int) : Option Vstack :=
  if minSize ≤ 0 then none
  else some ⟨minSize.toNat, minSize.toNat, []⟩

/-- Modelled from the spec: push doubles the backing capacity when the array
is full, then appends. -/
def elektraVstackPush (s : Vstack) (d : Int) : Vstack :=
  { s with size := growCap s.size s.data.length, data := d :: s.data }

/-- Modelled from the spec: pop fails on an empty stack, otherwise removes the
top and applies the shrink hysteresis. -/
def elektraVstackPop (s : Vstack) : Option (Int × Vstack) :=
  match s.data with
  | [] => none
  | d :: rest =>
    some (d, { s with size := shrinkCap s.minSize s.size rest.length, data := rest })

/-- Modelled from the spec: emptiness test. -/
def elektraVstackIsEmpty (s : Vstack) : Bool := s.data.isEmpty

/-- Push `n` equal references (the grow/shrink tests push one fixed datum). -/
def vpushN : Nat → Vstack → Vstack
  | 0, s => s
  | n + 1, s => vpushN n (elektraVstackPush s 42)

/-- Pop `n` times, discarding results; popping an empty stack leaves it
unchanged. -/
def vpopN : Nat → Vstack → Vstack
  | 0, s => s
  | n + 1, s =>
    match elektraVstackPop s with
    | none => vpopN n s
    | some (_, s2) => vpopN n s2

/-- An arbitrary interleaving of stack operations. -/
inductive VOp where
  | push (d : Int)
  | pop
deriving DecidableEq

/-- Run a list of stack operations. -/
def vrunOps : List VOp → Vstack → Vstack
  | [], s => s
  | .push d :: r, s => vrunOps r (elektraVstackPush s d)
  | .pop :: r, s =>
    match elektraVstackPop s with
    | none => vrunOps r s
    | some (_, s2) => vrunOps r s2

/-- Modelled from the spec: the Vheap structure (`vheap.c` is not among the
sources): comparator, backing capacity, initial capacity, and the heap array. -/
structure Vheap where
  comp : Int → Int → Bool
  size : Nat
  minSize : Nat
  data : List Int

/-- Sift the element at index `i` up towards the root (fuelled recursion; the
fuel bounds the number of parent steps). -/
def siftUpF (cmp : Int → Int → Bool) : Nat → List Int → Nat → List Int
  | 0, l, _ => l
  | fuel + 1, l, i =>
    if i = 0 then l
    else
      let p := (i - 1) / 2
      if cmp (l.getD i 0) (l.getD p 0) then
        siftUpF cmp fuel ((l.set p (l.getD i 0)).set i (l.getD p 0)) p
      else l

/-- Sift the element at index `i` down towards the leaves (fuelled recursion). -/
def siftDownF (cmp : Int → Int → Bool) : Nat → List Int → Nat → List Int
  | 0, l, _ => l
  | fuel + 1, l, i =>
    let c1 := 2 * i + 1
    if l.length ≤ c1 then l
    else
      let c2 := 2 * i + 2
      let c := if c2 < l.length ∧ cmp (l.getD c2 0) (l.getD c1 0) then c2 else c1
      if cmp (l.getD c 0) (l.getD i 0) then
        siftDownF cmp fuel ((l.set i (l.getD c 0)).set c (l.getD i 0)) c
      else l

/-- Modelled from the spec: `elektraVheapInit` fails on a missing comparator or
non-positive initial capacity; the comparator argument is always present in the
model, the NULL-comparator failure is outside it. -/
def elektraVheapInit (cmp : Int → Int → Bool) (minSize : Int) : Option Vheap :=
  if minSize ≤ 0 then none
  else some ⟨cmp, minSize.toNat, minSize.toNat, []⟩

/-- Modelled from the spec: insert grows a full backing array by doubling,
appends at the end and sifts the new element up. -/
def elektraVheapInsert (h : Vheap) (d : Int) : Vheap :=
  let n := h.data.length
  let l2 := h.data ++ [d]
  { h with size := growCap h.size n, data := siftUpF h.comp n l2 n }

/-- Modelled from the spec: remove fails on an empty heap; otherwise the root
is extracted, the last element moves to the root and sifts down, and the
shrink hysteresis is applied. -/
def elektraVheapRemove (h : Vheap) : Option (Int × Vheap) :=
  match hd : h.data with
  | [] => none
  | root :: _ =>
    let rest := (h.data.set 0 (h.data.getLast (by simp [hd]))).dropLast
    let d2 := siftDownF h.comp rest.length rest 0
    some (root, { h with size := shrinkCap h.minSize h.size d2.length, data := d2 })

/-- Modelled from the spec: emptiness test. -/
def elektraVheapIsEmpty (h : Vheap) : Bool := h.data.isEmpty

/-- Insert `n` equal references into the heap. -/
def hinsN : Nat → Vheap → Vheap
  | 0, h => h
  | n + 1, h => hinsN n (elektraVheapInsert h 42)

/-- Remove `n` times, discarding results; removing from an empty heap leaves
it unchanged. -/
def hremN : Nat → Vheap → Vheap
  | 0, h => h
  | n + 1, h =>
    match elektraVheapRemove h with
    | none => hremN n h
    | some (_, h2) => hremN n h2

/-- An arbitrary interleaving of heap operations. -/
inductive HOp where
  | ins (d : Int)
  | rem
deriving DecidableEq

/-- Run a list of heap operations. -/
def hrunOps : List HOp → Vheap → Vheap
  | [], h => h
  | .ins d :: r, h => hrunOps r (elektraVheapInsert h d)
  | .rem :: r, h =>
    match elektraVheapRemove h with
    | none => hrunOps r h
    | some (_, h2) => hrunOps r h2

/-! ## Helper lemmas -/

theorem ite_or_pull (p : Prop) [Decidable p] (r b : Nat) :
    (if p then r ||| b else r) = r ||| (if p then b else 0) := by
  by_cases h : p <;> simp [h]

theorem ite_or_merge (p q : Prop) [Decidable p] [Decidable q] (b : Nat) :
    (if p then b else 0) ||| (if q then b else 0) = if p ∨ q then b else 0 := by
  by_cases hp : p <;> by_cases hq : q <;> simp [hp, hq, Nat.or_self]

theorem valCond_comm (v1 v2 : List Nat) :
    (v1.length ≠ v2.length ∨ v1.take v1.length ≠ v2.take v1.length) ↔
      (v2.length ≠ v1.length ∨ v2.take v2.length ≠ v1.take v2.length) := by
  by_cases h : v1.length = v2.length
  · have e2 : v2.take v1.length = v2 := by rw [h]; exact List.take_length v2
    have e4 : v1.take v2.length = v1 := by rw [← h]; exact List.take_length v1
    rw [List.take_length, List.take_length, e2, e4]
    simp only [h, ne_eq, not_true_eq_false, false_or]
    exact ne_comm
  · constructor <;> intro _ <;> exact Or.inl (fun e => h (by omega))

theorem keyCompare_some_eq (k1 k2 : Key) :
    keyCompare (some k1) (some k2) =
      (if k1.uid ≠ k2.uid then KEY_UID else 0) |||
      (if k1.gid ≠ k2.gid then KEY_GID else 0) |||
      (if k1.mode ≠ k2.mode then KEY_MODE else 0) |||
      (if keyGetNameSize (some k1) ≠ keyGetNameSize (some k2) ∨ keyName k1 ≠ keyName k2
        then KEY_NAME else 0) |||
      (if k1.comment ≠ k2.comment then KEY_COMMENT else 0) |||
      (if k1.owner ≠ k2.owner then KEY_OWNER else 0) |||
      (if k1.value.length ≠ k2.value.length ∨ k1.value.take k1.value.length ≠ k2.value.take k1.value.length
        then KEY_VALUE else 0) := by
  show (if k1.value.take k1.value.length ≠ k2.value.take k1.value.length then _ ||| KEY_VALUE else _) = _
  rw [ite_or_pull, ite_or_pull, ite_or_pull, ite_or_pull, ite_or_pull, ite_or_pull,
    ite_or_pull, ite_or_pull, ite_or_pull, Nat.zero_or]
  rw [Nat.or_assoc _ (if keyGetNameSize (some k1) ≠ keyGetNameSize (some k2) then KEY_NAME else 0),
    ite_or_merge]
  rw [Nat.or_assoc _ (if k1.value.length ≠ k2.value.length then KEY_VALUE else 0), ite_or_merge]

/-! ## Claim theorems: DiffEngine and flags -/

/-- C5: keyCompare of two NULL keys is the empty mask, of exactly one NULL key
the reserved NullMismatch bit `KEY_NULL`, which is distinct from (and disjoint
with) the seven field bits. -/
theorem keyCompare_null_mismatch :
    keyCompare none none = 0 ∧
    (∀ k : Key, keyCompare (some k) none = KEY_NULL ∧ keyCompare none (some k) = KEY_NULL) ∧
    KEY_NULL ≠ KEY_NAME ∧ KEY_NULL ≠ KEY_VALUE ∧ KEY_NULL ≠ KEY_OWNER ∧
    KEY_NULL ≠ KEY_COMMENT ∧ KEY_NULL ≠ KEY_UID ∧ KEY_NULL ≠ KEY_GID ∧ KEY_NULL ≠ KEY_MODE ∧
    KEY_NULL &&& (KEY_NAME ||| KEY_VALUE ||| KEY_OWNER ||| KEY_COMMENT ||| KEY_UID ||| KEY_GID ||| KEY_MODE) = 0 := by
  exact ⟨rfl, fun k => ⟨rfl, rfl⟩, by decide, by decide, by decide, by decide, by decide,
    by decide, by decide, by decide⟩

/-- C6: keyCompare marks the same field bits regardless of argument order. -/
theorem keyCompare_comm (a b : Option Key) : keyCompare a b = keyCompare b a := by
  cases a with
  | none => cases b with
    | none => rfl
    | some k2 => rfl
  | some k1 => cases b with
    | none => rfl
    | some k2 =>
      rw [keyCompare_some_eq, keyCompare_some_eq]
      have hval := valCond_comm k1.value k2.value
      simp only [ne_comm, hval]

/-- C9: keyClearSync clears exactly the sync bit, leaves every other flag bit
and every other field unchanged, and afterwards keyNeedSync reports 0; on a
NULL key both operations return -1. -/
theorem keyClearSync_frame (k : Key) (hf : k.flags < 2 ^ 32) :
    ∃ k2 : Key, keyClearSync (some k) = ((k2.flags : Int), some k2) ∧
      k2.flags.testBit 0 = false ∧
      (∀ i, i ≠ 0 → k2.flags.testBit i = k.flags.testBit i) ∧
      k2.key = k.key ∧ k2.metaNames = k.metaNames ∧ k2.comment = k.comment ∧
      k2.owner = k.owner ∧ k2.value = k.value ∧ k2.uid = k.uid ∧ k2.gid = k.gid ∧
      k2.mode = k.mode ∧
      keyNeedSync (some k2) = 0 ∧
      keyClearSync none = (-1, none) ∧ keyNeedSync none = -1 := by
  have hmask : (2 ^ 32 - 1 - KEY_FLAG_SYNC : Nat) = (2 ^ 31 - 1) <<< 1 := by decide
  have hbit : ∀ i : Nat, ((2 ^ 31 - 1 : Nat) <<< 1).testBit i = (decide (1 ≤ i) && decide (i < 32)) := by
    intro i
    rw [Nat.testBit_shiftLeft, Nat.testBit_two_pow_sub_one]
    by_cases h1 : 1 ≤ i <;> simp [h1]
    omega
  refine ⟨{ k with flags := k.flags &&& (2 ^ 32 - 1 - KEY_FLAG_SYNC) }, rfl, ?_, ?_,
    rfl, rfl, rfl, rfl, rfl, rfl, rfl, rfl, ?_, rfl, rfl⟩
  · rw [Nat.testBit_and, hmask, hbit]
    simp
  · intro i hi
    rw [Nat.testBit_and, hmask, hbit]
    by_cases h32 : i < 32
    · simp [Nat.one_le_iff_ne_zero.mpr hi, h32]
    · have : k.flags.testBit i = false := by
        refine Nat.testBit_lt_two_pow (lt_of_lt_of_le hf ?_)
        exact Nat.pow_le_pow_right (by norm_num) (by omega)
      simp [this]
  · show (if _ = KEY_FLAG_SYNC then (1 : Int) else 0) = 0
    have hKN : (k.flags &&& (2 ^ 32 - 1 - KEY_FLAG_SYNC)) &&& KEY_FLAG_SYNC = 0 := by
      have h0 : (k.flags &&& (2 ^ 32 - 1 - KEY_FLAG_SYNC)).testBit 0 = false := by
        rw [Nat.testBit_and, hmask, hbit]; simp
      rw [Nat.testBit_zero] at h0
      show _ &&& 1 = 0
      rw [Nat.and_one_is_mod]
      rw [decide_eq_false_iff_not] at h0
      omega
    rw [hKN]
    simp [KEY_FLAG_SYNC]

/-- Witness for C9 at a concrete key with flag bits 1 and 2 set. -/
theorem keyClearSync_frame_witness :
    ∃ k2 : Key, keyClearSync (some ⟨some "user/a".toList, 3, [], [], [], [], 0, 0, 0⟩) = ((k2.flags : Int), some k2) ∧
      k2.flags.testBit 0 = false ∧
      (∀ i, i ≠ 0 → k2.flags.testBit i = (3 : Nat).testBit i) ∧
      k2.key = some "user/a".toList ∧ k2.metaNames = [] ∧ k2.comment = [] ∧
      k2.owner = [] ∧ k2.value = [] ∧ k2.uid = 0 ∧ k2.gid = 0 ∧
      k2.mode = 0 ∧
      keyNeedSync (some k2) = 0 ∧
      keyClearSync none = (-1, none) ∧ keyNeedSync none = -1 :=
  keyClearSync_frame ⟨some "user/a".toList, 3, [], [], [], [], 0, 0, 0⟩ (by norm_num)

/-- C10: keyIsString and keyIsBinary are exact complements on non-NULL keys,
determined solely by the presence of the metadata entry `binary` (the stored
value bytes are irrelevant); both return -1 on NULL. -/
theorem keyIsBinary_keyIsString_complement :
    (∀ k : Key, (keyIsString (some k) = 1 ↔ keyIsBinary (some k) = 0) ∧
      (keyIsBinary (some k) = 1 ∨ keyIsBinary (some k) = 0) ∧
      (∀ v, keyIsBinary (some { k with value := v }) = keyIsBinary (some k) ∧
            keyIsString (some { k with value := v }) = keyIsString (some k))) ∧
    keyIsBinary none = -1 ∧ keyIsString none = -1 := by
  refine ⟨fun k => ⟨?_, ?_, fun v => ⟨rfl, rfl⟩⟩, rfl, rfl⟩ <;>
    by_cases h : keyHasMeta k "binary".toList <;> simp [keyIsString, keyIsBinary, h]

/-! ## Claim theorems: keyIsInactive -/

theorem inactiveLoop_eq_one_iff (ss : List (List Char)) :
    inactiveLoop ss = 1 ↔ ∃ s ∈ ss, s.headD '\x00' = '.' := by
  induction ss with
  | nil => simp [inactiveLoop]
  | cons s r ih =>
    have hred : inactiveLoop (s :: r) =
        if 0 < s.length ∧ s.headD '\x00' = '.' then 1 else inactiveLoop r := rfl
    rw [hred]
    by_cases h : 0 < s.length ∧ s.headD '\x00' = '.'
    · rw [if_pos h]
      exact ⟨fun _ => ⟨s, List.mem_cons_self s r, h.2⟩, fun _ => rfl⟩
    · rw [if_neg h]
      rw [ih]
      constructor
      · rintro ⟨t, ht, hdot⟩
        exact ⟨t, List.mem_cons_of_mem s ht, hdot⟩
      · rintro ⟨t, ht, hdot⟩
        rcases List.mem_cons.mp ht with rfl | hmem
        · exfalso
          apply h
          refine ⟨?_, hdot⟩
          cases t with
          | nil => simp [List.headD] at hdot
          | cons a b => simp
        · exact ⟨t, hmem, hdot⟩

theorem inactiveLoop_zero_or_one (ss : List (List Char)) :
    inactiveLoop ss = 0 ∨ inactiveLoop ss = 1 := by
  induction ss with
  | nil => exact Or.inl rfl
  | cons s r ih =>
    have hred : inactiveLoop (s :: r) =
        if 0 < s.length ∧ s.headD '\x00' = '.' then 1 else inactiveLoop r := rfl
    rw [hred]
    by_cases h : 0 < s.length ∧ s.headD '\x00' = '.'
    · rw [if_pos h]; exact Or.inr rfl
    · rw [if_neg h]; exact ih

/-- C7: for a key with a non-empty name, keyIsInactive returns 1 exactly when
some segment of the name decomposition begins with `.` (and 0 otherwise); it
returns -1 on a NULL key and on keys with an absent or empty name. -/
theorem keyIsInactive_spec (k : Key) (n : List Char) (hk : k.key = some n) (hne : n ≠ []) :
    (keyIsInactive (some k) = 1 ↔ ∃ s ∈ segs n, s.headD '\x00' = '.') ∧
    (keyIsInactive (some k) = 0 ∨ keyIsInactive (some k) = 1) ∧
    keyIsInactive none = -1 ∧
    (∀ k2 : Key, k2.key = none → keyIsInactive (some k2) = -1) ∧
    (∀ k2 : Key, k2.key = some [] → keyIsInactive (some k2) = -1) := by
  have hname : keyName k = n := by simp [keyName, hk]
  have hstep : keyIsInactive (some k) = inactiveLoop (segs n) := by
    simp [keyIsInactive, hname, hne]
  refine ⟨?_, ?_, rfl, ?_, ?_⟩
  · rw [hstep]; exact inactiveLoop_eq_one_iff (segs n)
  · rw [hstep]; exact inactiveLoop_zero_or_one (segs n)
  · intro k2 h2; simp [keyIsInactive, keyName, h2]
  · intro k2 h2; simp [keyIsInactive, keyName, h2]

/-- Witness for C7 at the spec's concrete scenario `user/key/.hidden` (and the
active key `user/key/visible` via the iff). -/
theorem keyIsInactive_spec_witness :
    (keyIsInactive (some ⟨some "user/key/.hidden".toList, 0, [], [], [], [], 0, 0, 0⟩) = 1 ↔
      ∃ s ∈ segs "user/key/.hidden".toList, s.headD '\x00' = '.') ∧
    (keyIsInactive (some ⟨some "user/key/.hidden".toList, 0, [], [], [], [], 0, 0, 0⟩) = 0 ∨
      keyIsInactive (some ⟨some "user/key/.hidden".toList, 0, [], [], [], [], 0, 0, 0⟩) = 1) ∧
    keyIsInactive none = -1 ∧
    (∀ k2 : Key, k2.key = none → keyIsInactive (some k2) = -1) ∧
    (∀ k2 : Key, k2.key = some [] → keyIsInactive (some k2) = -1) :=
  keyIsInactive_spec ⟨some "user/key/.hidden".toList, 0, [], [], [], [], 0, 0, 0⟩
    "user/key/.hidden".toList rfl (by decide)

/-! ## Claim theorems: keyIsBelow -/

theorem strncmpZ_eq_true_iff (n : Nat) (a b : List Char)
    (ha : '\x00' ∉ a) (hb : '\x00' ∉ b) :
    strncmpZ a b n = true ↔ a.take n = b.take n := by
  induction n generalizing a b with
  | zero => simp [strncmpZ]
  | succ m ih =>
    match a, b with
    | [], [] => simp [strncmpZ]
    | [], x :: xs => simp [strncmpZ]
    | y :: ys, [] => simp [strncmpZ]
    | y :: ys, x :: xs =>
      have hy : ¬ (y == '\x00') = true := by
        simp only [beq_iff_eq]
        exact fun e => ha (e ▸ List.mem_cons_self y ys)
      have hys : '\x00' ∉ ys := fun e => ha (List.mem_cons_of_mem y e)
      have hxs : '\x00' ∉ xs := fun e => hb (List.mem_cons_of_mem x e)
      have hred : strncmpZ (y :: ys) (x :: xs) (m + 1)
          = (y == x && (y == '\x00' || strncmpZ ys xs m)) := rfl
      rw [hred]
      simp only [Bool.and_eq_true, Bool.or_eq_true, beq_iff_eq, List.take_succ_cons,
        List.cons.injEq]
      rw [← ih ys xs hys hxs]
      constructor
      · rintro ⟨he, hz | hr⟩
        · exact absurd (by simpa using hz) (by simpa using hy)
        · exact ⟨he, hr⟩
      · rintro ⟨he, hr⟩
        exact ⟨he, Or.inr hr⟩

theorem keyGetNameSize_some (k : Key) :
    keyGetNameSize (some k) = ((keyName k).length : Int) + 1 := by
  cases hk : k.key <;> simp [keyGetNameSize, keyName, hk]

theorem keyIsBelow_some (k c : Key) :
    keyIsBelow (some k) (some c) =
      if ((keyName k).length : Int) + 1 > ((keyName c).length : Int) + 1 + 1 then 0
      else if strncmpZ (keyName k) (keyName c) (keyName k).length = false then 0
      else if ¬ cstr (keyName c) (keyName k).length = '/' then 0
      else 1 := by
  show (if keyGetNameSize (some k) > keyGetNameSize (some c) + 1 then (0 : Int)
        else if strncmpZ (keyName k) (keyName c) (keyGetNameSize (some k) - 1).toNat = false then 0
        else if ¬ cstr (keyName c) (keyGetNameSize (some k) - 1).toNat = '/' then 0
        else 1) = _
  rw [keyGetNameSize_some, keyGetNameSize_some]
  have ht : (((keyName k).length : Int) + 1 - 1).toNat = (keyName k).length := by simp
  rw [ht]

theorem keyIsBelow_some_range (k c : Key) :
    keyIsBelow (some k) (some c) = 0 ∨ keyIsBelow (some k) (some c) = 1 := by
  rw [keyIsBelow_some]
  split
  · exact Or.inl rfl
  split
  · exact Or.inl rfl
  split
  · exact Or.inl rfl
  · exact Or.inr rfl

theorem keyIsBelow_eq_one_iff (k c : Key)
    (hk : '\x00' ∉ keyName k) (hc : '\x00' ∉ keyName c) :
    keyIsBelow (some k) (some c) = 1 ↔ specBelow (keyName k) (keyName c) := by
  rw [keyIsBelow_some]
  set b := keyName k with hb
  set n := keyName c with hn
  constructor
  · intro h1
    by_cases c1 : ((b.length : Int) + 1 > (n.length : Int) + 1 + 1)
    · rw [if_pos c1] at h1; exact absurd h1 (by norm_num)
    rw [if_neg c1] at h1
    by_cases c2 : strncmpZ b n b.length = false
    · rw [if_pos c2] at h1; exact absurd h1 (by norm_num)
    rw [if_neg c2] at h1
    by_cases c3 : ¬ cstr n b.length = '/'
    · rw [if_pos c3] at h1; exact absurd h1 (by norm_num)
    push_neg at c3
    have htake : n.take b.length = b := by
      have := (strncmpZ_eq_true_iff b.length b n hk hc).mp (by
        cases hzz : strncmpZ b n b.length
        · exact absurd hzz c2
        · rfl)
      rw [List.take_length] at this
      exact this.symm
    have hlt : b.length < n.length := by
      by_contra hge
      push_neg at hge
      have hbn : b = n := by
        rw [← htake, List.take_of_length_le hge]
      have : cstr n b.length = '\x00' := by
        apply List.getD_eq_default
        omega
      rw [this] at c3
      exact absurd c3 (by decide)
    exact ⟨hlt, htake, c3⟩
  · rintro ⟨hlt, htake, hsep⟩
    have c1 : ¬ ((b.length : Int) + 1 > (n.length : Int) + 1 + 1) := by
      omega
    rw [if_neg c1]
    have c2 : ¬ strncmpZ b n b.length = false := by
      have : strncmpZ b n b.length = true := by
        rw [strncmpZ_eq_true_iff b.length b n hk hc, List.take_length, htake]
      simp [this]
    rw [if_neg c2]
    rw [if_neg (by simpa using hsep)]

/-- C2: keyIsBelow on non-NULL keys returns 1 exactly when the check's escaped
name extends the base's escaped name past a `/` at the boundary (longer name,
matching prefix of the base's length, separator at that position); it returns
only 0 or 1, returns 0 exactly when that condition fails, and in particular
returns 0 when the two names are equal. -/
theorem keyIsBelow_strict_prefix (k c : Key)
    (hk : '\x00' ∉ keyName k) (hc : '\x00' ∉ keyName c) :
    (keyIsBelow (some k) (some c) = 1 ↔
      ((keyName k).length < (keyName c).length ∧
       (keyName c).take (keyName k).length = keyName k ∧
       cstr (keyName c) (keyName k).length = '/')) ∧
    (keyName k = keyName c → keyIsBelow (some k) (some c) = 0) ∧
    (keyIsBelow (some k) (some c) = 0 ∨ keyIsBelow (some k) (some c) = 1) ∧
    (keyIsBelow (some k) (some c) = 0 ↔
      ¬ ((keyName k).length < (keyName c).length ∧
         (keyName c).take (keyName k).length = keyName k ∧
         cstr (keyName c) (keyName k).length = '/')) := by
  have hiff := keyIsBelow_eq_one_iff k c hk hc
  have hrange := keyIsBelow_some_range k c
  have heqz : keyIsBelow (some k) (some c) = 0 ↔ ¬ specBelow (keyName k) (keyName c) := by
    constructor
    · intro h0 hsb
      rw [hiff.mpr hsb] at h0
      exact absurd h0 (by norm_num)
    · intro hn
      rcases hrange with h | h
      · exact h
      · exact absurd (hiff.mp h) hn
  refine ⟨hiff, ?_, hrange, heqz⟩
  intro he
  apply heqz.mpr
  rw [he]
  rintro ⟨hlt, _, _⟩
  omega

/-- Witness for C2 at the keys `user/sw/app` and `user/sw/app/key`. -/
theorem keyIsBelow_strict_prefix_witness :
    (keyIsBelow (some ⟨some "user/sw/app".toList, 0, [], [], [], [], 0, 0, 0⟩)
        (some ⟨some "user/sw/app/key".toList, 0, [], [], [], [], 0, 0, 0⟩) = 1 ↔
      ((keyName ⟨some "user/sw/app".toList, 0, [], [], [], [], 0, 0, 0⟩).length <
        (keyName ⟨some "user/sw/app/key".toList, 0, [], [], [], [], 0, 0, 0⟩).length ∧
       (keyName ⟨some "user/sw/app/key".toList, 0, [], [], [], [], 0, 0, 0⟩).take
          (keyName ⟨some "user/sw/app".toList, 0, [], [], [], [], 0, 0, 0⟩).length =
          keyName ⟨some "user/sw/app".toList, 0, [], [], [], [], 0, 0, 0⟩ ∧
       cstr (keyName ⟨some "user/sw/app/key".toList, 0, [], [], [], [], 0, 0, 0⟩)
          (keyName ⟨some "user/sw/app".toList, 0, [], [], [], [], 0, 0, 0⟩).length = '/')) ∧
    (keyName (⟨some "user/sw/app".toList, 0, [], [], [], [], 0, 0, 0⟩ : Key) =
        keyName ⟨some "user/sw/app/key".toList, 0, [], [], [], [], 0, 0, 0⟩ →
      keyIsBelow (some ⟨some "user/sw/app".toList, 0, [], [], [], [], 0, 0, 0⟩)
        (some ⟨some "user/sw/app/key".toList, 0, [], [], [], [], 0, 0, 0⟩) = 0) ∧
    (keyIsBelow (some ⟨some "user/sw/app".toList, 0, [], [], [], [], 0, 0, 0⟩)
        (some ⟨some "user/sw/app/key".toList, 0, [], [], [], [], 0, 0, 0⟩) = 0 ∨
     keyIsBelow (some ⟨some "user/sw/app".toList, 0, [], [], [], [], 0, 0, 0⟩)
        (some ⟨some "user/sw/app/key".toList, 0, [], [], [], [], 0, 0, 0⟩) = 1) ∧
    (keyIsBelow (some ⟨some "user/sw/app".toList, 0, [], [], [], [], 0, 0, 0⟩)
        (some ⟨some "user/sw/app/key".toList, 0, [], [], [], [], 0, 0, 0⟩) = 0 ↔
      ¬ ((keyName ⟨some "user/sw/app".toList, 0, [], [], [], [], 0, 0, 0⟩).length <
          (keyName ⟨some "user/sw/app/key".toList, 0, [], [], [], [], 0, 0, 0⟩).length ∧
         (keyName ⟨some "user/sw/app/key".toList, 0, [], [], [], [], 0, 0, 0⟩).take
            (keyName ⟨some "user/sw/app".toList, 0, [], [], [], [], 0, 0, 0⟩).length =
            keyName ⟨some "user/sw/app".toList, 0, [], [], [], [], 0, 0, 0⟩ ∧
         cstr (keyName ⟨some "user/sw/app/key".toList, 0, [], [], [], [], 0, 0, 0⟩)
            (keyName ⟨some "user/sw/app".toList, 0, [], [], [], [], 0, 0, 0⟩).length = '/')) :=
  keyIsBelow_strict_prefix ⟨some "user/sw/app".toList, 0, [], [], [], [], 0, 0, 0⟩
    ⟨some "user/sw/app/key".toList, 0, [], [], [], [], 0, 0, 0⟩ (by decide) (by decide)

/-! ## Segment decomposition lemmas -/

theorem consHead_ne_nil (c : Char) (l : List (List Char)) : consHead c l ≠ [] := by
  cases l <;> simp [consHead]

theorem segs_nil_eq : segs [] = [[]] := by
  rw [segs.eq_def]

theorem segs_cons_slash (r : List Char) : segs ('/' :: r) = [] :: segs r := by
  rw [segs.eq_def]; simp

theorem segs_esc_nil : segs ['\\'] = [['\\']] := by
  rw [segs.eq_def]; simp

theorem segs_cons_esc (c : Char) (r : List Char) :
    segs ('\\' :: c :: r) = consHead c (segs r) := by
  rw [segs.eq_def]; simp

theorem segs_cons_other (c : Char) (r : List Char) (h1 : ¬ c = '/') (h2 : ¬ c = '\\') :
    segs (c :: r) = consHead c (segs r) := by
  rw [segs.eq_def]; simp [h1, h2]

theorem segs_ne_nil (l : List Char) : segs l ≠ [] := by
  cases l with
  | nil => rw [segs_nil_eq]; simp
  | cons a r =>
    by_cases h1 : a = '/'
    · subst h1; rw [segs_cons_slash]; simp
    by_cases h2 : a = '\\'
    · subst h2
      cases r with
      | nil => rw [segs_esc_nil]; simp
      | cons c r2 => rw [segs_cons_esc]; exact consHead_ne_nil c (segs r2)
    · rw [segs_cons_other a r h1 h2]; exact consHead_ne_nil a (segs r)

theorem consHead_append (c : Char) (x y : List (List Char)) (hx : x ≠ []) :
    consHead c (x ++ y) = consHead c x ++ y := by
  cases x with
  | nil => exact absurd rfl hx
  | cons s t => simp [consHead]

theorem wfName_cons_esc (c : Char) (r : List Char) :
    wfName ('\\' :: c :: r) = wfName r := by
  simp [wfName]

theorem wfName_cons_other (c : Char) (r : List Char) (h2 : ¬ c = '\\') :
    wfName (c :: r) = wfName r := by
  rw [wfName.eq_def]
  simp [h2]

theorem segs_append (b t : List Char) (hb : wfName b = true) :
    segs (b ++ '/' :: t) = segs b ++ segs t := by
  induction b using segs.induct with
  | case1 => rw [segs_nil_eq, List.nil_append, segs_cons_slash]; rfl
  | case2 r2 ih =>
    have hwf : wfName r2 = true := by
      rw [← wfName_cons_other '/' r2 (by decide)]; exact hb
    show segs ('/' :: (r2 ++ '/' :: t)) = segs ('/' :: r2) ++ segs t
    rw [segs_cons_slash, ih hwf, segs_cons_slash]
    rfl
  | case3 =>
    exfalso
    have hfalse : wfName ['\\'] = false := by simp [wfName]
    rw [hfalse] at hb
    exact absurd hb (by decide)
  | case4 c r2 hns ih =>
    have hwf : wfName r2 = true := by
      rw [← wfName_cons_esc c r2]; exact hb
    show segs ('\\' :: c :: (r2 ++ '/' :: t)) = segs ('\\' :: c :: r2) ++ segs t
    rw [segs_cons_esc, ih hwf, segs_cons_esc]
    exact consHead_append c (segs r2) (segs t) (segs_ne_nil r2)
  | case5 c r2 h1 h2 ih =>
    have hwf : wfName r2 = true := by
      rw [← wfName_cons_other c r2 h2]; exact hb
    show segs (c :: (r2 ++ '/' :: t)) = segs (c :: r2) ++ segs t
    rw [segs_cons_other c _ h1 h2, ih hwf, segs_cons_other c r2 h1 h2]
    exact consHead_append c (segs r2) (segs t) (segs_ne_nil r2)

theorem segs_noNul (l : List Char) (hl : '\x00' ∉ l) : ∀ s ∈ segs l, '\x00' ∉ s := by
  induction l using segs.induct with
  | case1 =>
    intro s hs
    rw [segs_nil_eq, List.mem_singleton] at hs
    simp [hs]
  | case2 r2 ih =>
    intro s hs
    rw [segs_cons_slash] at hs
    rcases List.mem_cons.mp hs with rfl | hmem
    · simp
    · exact ih (fun e => hl (List.mem_cons_of_mem _ e)) s hmem
  | case3 =>
    intro s hs
    rw [segs_esc_nil, List.mem_singleton] at hs
    subst hs
    intro hmem
    exact absurd (List.mem_singleton.mp hmem) (by decide)
  | case4 c r2 hns ih =>
    intro s hs
    rw [segs_cons_esc] at hs
    have hc : ¬ c = '\x00' := fun e => hl (by simp [e])
    have hr2 : '\x00' ∉ r2 := fun e => hl (by simp [e])
    cases hx : segs r2 with
    | nil => exact absurd hx (segs_ne_nil r2)
    | cons s1 t =>
      rw [hx] at hs
      simp only [consHead, List.mem_cons] at hs
      rcases hs with rfl | hmem
      · intro hm
        rcases List.mem_cons.mp hm with h | h
        · exact hc h.symm
        · exact ih hr2 s1 (by rw [hx]; exact List.mem_cons_self s1 t) h
      · exact ih hr2 s (by rw [hx]; exact List.mem_cons_of_mem s1 hmem)
  | case5 c r2 h1 h2 ih =>
    intro s hs
    rw [segs_cons_other c r2 h1 h2] at hs
    have hc : ¬ c = '\x00' := fun e => hl (by simp [e])
    have hr2 : '\x00' ∉ r2 := fun e => hl (by simp [e])
    cases hx : segs r2 with
    | nil => exact absurd hx (segs_ne_nil r2)
    | cons s1 t =>
      rw [hx] at hs
      simp only [consHead, List.mem_cons] at hs
      rcases hs with rfl | hmem
      · intro hm
        rcases List.mem_cons.mp hm with h | h
        · exact hc h.symm
        · exact ih hr2 s1 (by rw [hx]; exact List.mem_cons_self s1 t) h
      · exact ih hr2 s (by rw [hx]; exact List.mem_cons_of_mem s1 hmem)

theorem nulJoin_append (x y : List (List Char)) :
    nulJoin (x ++ y) = nulJoin x ++ nulJoin y := by
  induction x with
  | nil => rfl
  | cons s r ih => simp [nulJoin, ih]

theorem nulJoin_length_pos (x : List (List Char)) (hx : x ≠ []) :
    0 < (nulJoin x).length := by
  cases x with
  | nil => exact absurd rfl hx
  | cons s r => simp [nulJoin]

theorem findIdx_nul_append (s t : List Char) (hs : '\x00' ∉ s) :
    (s ++ '\x00' :: t).findIdx (fun x => x == '\x00') = s.length := by
  induction s with
  | nil => simp [List.findIdx_cons]
  | cons a r ih =>
    have ha : (a == '\x00') = false := by
      simp only [beq_eq_false_iff_ne, ne_eq]
      exact fun e => hs (by simp [e])
    have hr : '\x00' ∉ r := fun e => hs (List.mem_cons_of_mem a e)
    simp only [List.cons_append, List.findIdx_cons, ha, cond_false, ih hr]
    simp

/-! ## Claim theorems: keyIsDirectBelow -/

theorem specBelow_decomp (b n : List Char) (h : specBelow b n) :
    n = b ++ '/' :: n.drop (b.length + 1) := by
  obtain ⟨hlt, htake, hsep⟩ := h
  have hget : n[b.length] = '/' := by
    rw [cstr, List.getD_eq_getElem n '\x00' hlt] at hsep
    exact hsep
  conv_lhs => rw [← List.take_append_drop b.length n]
  rw [htake, List.drop_eq_getElem_cons hlt, hget]

theorem keyIsDirectBelow_eq_one_iff (k c : Key)
    (hk : '\x00' ∉ keyName k) (hc : '\x00' ∉ keyName c) (hw : wfName (keyName k) = true) :
    keyIsDirectBelow (some k) (some c) = 1 ↔
      (keyIsBelow (some k) (some c) = 1 ∧
       (segs (keyName c)).length = (segs (keyName k)).length + 1) := by
  have hred : keyIsDirectBelow (some k) (some c) =
      if keyIsBelow (some k) (some c) = 0 then 0
      else if (unameOf (keyName k)).length +
          ((unameOf (keyName c)).drop (unameOf (keyName k)).length).findIdx (fun x => x == '\x00')
          = (unameOf (keyName c)).length - 1 then 1 else 0 := rfl
  rcases keyIsBelow_some_range k c with h0 | h1
  · rw [hred, if_pos h0]
    constructor
    · intro h; exact absurd h (by norm_num)
    · rintro ⟨hb, _⟩
      rw [h0] at hb
      exact absurd hb (by norm_num)
  · rw [hred, if_neg (by rw [h1]; norm_num)]
    have hspec := (keyIsBelow_eq_one_iff k c hk hc).mp h1
    have hdec := specBelow_decomp (keyName k) (keyName c) hspec
    have hnt : '\x00' ∉ (keyName c).drop ((keyName k).length + 1) :=
      fun e => hc (List.drop_subset _ (keyName c) e)
    have hsegs : segs (keyName c) = segs (keyName k) ++ segs ((keyName c).drop ((keyName k).length + 1)) := by
      conv_lhs => rw [hdec]
      exact segs_append (keyName k) _ hw
    cases hxt : segs ((keyName c).drop ((keyName k).length + 1)) with
    | nil => exact absurd hxt (segs_ne_nil _)
    | cons s r =>
      have hsNul : '\x00' ∉ s :=
        segs_noNul _ hnt s (by rw [hxt]; exact List.mem_cons_self s r)
      have huname : unameOf (keyName c) = nulJoin (segs (keyName k)) ++ (s ++ '\x00' :: nulJoin r) := by
        rw [unameOf, hsegs, nulJoin_append, hxt]
        rfl
      have hdrop : (unameOf (keyName c)).drop (unameOf (keyName k)).length = s ++ '\x00' :: nulJoin r := by
        rw [huname, unameOf]
        exact List.drop_left _ _
      have hfind : ((unameOf (keyName c)).drop (unameOf (keyName k)).length).findIdx (fun x => x == '\x00') = s.length := by
        rw [hdrop]
        exact findIdx_nul_append s (nulJoin r) hsNul
      have hlen : (unameOf (keyName c)).length
          = (unameOf (keyName k)).length + s.length + 1 + (nulJoin r).length := by
        rw [huname, unameOf]
        simp
        omega
      have hcount : (segs (keyName c)).length = (segs (keyName k)).length + 1 + r.length := by
        rw [hsegs, hxt]
        simp
        omega
      rw [hfind]
      by_cases hr : r = []
      · subst hr
        have hcond : (unameOf (keyName k)).length + s.length = (unameOf (keyName c)).length - 1 := by
          rw [hlen]
          simp [nulJoin]
        rw [if_pos hcond]
        have hone : (segs (keyName c)).length = (segs (keyName k)).length + 1 := by
          rw [hcount]
          simp
        exact ⟨fun _ => ⟨h1, hone⟩, fun _ => rfl⟩
      · have hpos : 0 < (nulJoin r).length := nulJoin_length_pos r hr
        have hcond : ¬ ((unameOf (keyName k)).length + s.length = (unameOf (keyName c)).length - 1) := by
          rw [hlen]
          omega
        rw [if_neg hcond]
        constructor
        · intro h; exact absurd h (by norm_num)
        · rintro ⟨_, hcnt⟩
          rw [hcount] at hcnt
          have : r.length = 0 := by omega
          exact absurd (List.length_eq_zero.mp this) hr

/-- C4: for non-NULL keys with well-formed names, keyIsDirectBelow returns 1
exactly when keyIsBelow holds and the check's segment decomposition has
exactly one more segment than the base's. -/
theorem keyIsDirectBelow_direct_child (k c : Key) (nb nc : List Char)
    (hbk : k.key = some nb) (hck : c.key = some nc)
    (hnb : '\x00' ∉ nb) (hnc : '\x00' ∉ nc) (hwb : wfName nb = true) :
    keyIsDirectBelow (some k) (some c) = 1 ↔
      (keyIsBelow (some k) (some c) = 1 ∧ (segs nc).length = (segs nb).length + 1) := by
  have h1 : keyName k = nb := by simp [keyName, hbk]
  have h2 : keyName c = nc := by simp [keyName, hck]
  rw [← h1, ← h2]
  exact keyIsDirectBelow_eq_one_iff k c (h1 ▸ hnb) (h2 ▸ hnc) (h1 ▸ hwb)

/-- Witness for C4 at `user/sw/app` and `user/sw/app/key` (direct child). -/
theorem keyIsDirectBelow_direct_child_witness :
    keyIsDirectBelow (some ⟨some "user/sw/app".toList, 0, [], [], [], [], 0, 0, 0⟩)
        (some ⟨some "user/sw/app/key".toList, 0, [], [], [], [], 0, 0, 0⟩) = 1 ↔
      (keyIsBelow (some ⟨some "user/sw/app".toList, 0, [], [], [], [], 0, 0, 0⟩)
          (some ⟨some "user/sw/app/key".toList, 0, [], [], [], [], 0, 0, 0⟩) = 1 ∧
       (segs "user/sw/app/key".toList).length = (segs "user/sw/app".toList).length + 1) :=
  keyIsDirectBelow_direct_child ⟨some "user/sw/app".toList, 0, [], [], [], [], 0, 0, 0⟩
    ⟨some "user/sw/app/key".toList, 0, [], [], [], [], 0, 0, 0⟩
    "user/sw/app".toList "user/sw/app/key".toList rfl rfl
    (by decide) (by decide) (by decide)

/-! ## Claim theorems: keyRel -/

theorem keyNameOk_props (k : Key) (n : List Char) (hok : keyNameOk (some k) = true)
    (hn : k.key = some n) : '\x00' ∉ n ∧ wfName n = true := by
  rw [keyNameOk, hn] at hok
  simp only [Bool.and_eq_true, decide_eq_true_eq] at hok
  exact hok

theorem keyIsDirectBelow_range (k c : Key) :
    keyIsDirectBelow (some k) (some c) = 0 ∨ keyIsDirectBelow (some k) (some c) = 1 := by
  have hred : keyIsDirectBelow (some k) (some c) =
      if keyIsBelow (some k) (some c) = 0 then 0
      else if (unameOf (keyName k)).length +
          ((unameOf (keyName c)).drop (unameOf (keyName k)).length).findIdx (fun x => x == '\x00')
          = (unameOf (keyName c)).length - 1 then 1 else 0 := rfl
  rw [hred]
  split
  · exact Or.inl rfl
  split
  · exact Or.inr rfl
  · exact Or.inl rfl

theorem keyNameIsUser_ne_zero_iff (n : List Char) :
    keyNameIsUser n ≠ 0 ↔ nsOf n = ElektraNamespace.user := by
  by_cases h : nsOf n = ElektraNamespace.user <;> simp [keyNameIsUser, h]

theorem keyNameIsSystem_ne_zero_iff (n : List Char) :
    keyNameIsSystem n ≠ 0 ↔ nsOf n = ElektraNamespace.system := by
  by_cases h : nsOf n = ElektraNamespace.system <;> simp [keyNameIsSystem, h]

/-- C1: keyRel computes exactly the spec's six-way first-match cascade: the
integer it returns is the code of the outcome `relSpec` assigns (invalid -1,
same 0, direct child 1, descendant 2, same-hierarchy -3, unrelated -2), for
all keys whose present names are NUL-free and without dangling escape. -/
theorem keyRel_matches_relSpec (key check : Option Key)
    (hok1 : keyNameOk key = true) (hok2 : keyNameOk check = true) :
    keyRel key check = (relSpec key check).code := by
  match key, check with
  | none, none => rfl
  | none, some c => rfl
  | some k, none => rfl
  | some k, some c =>
    rcases hbk : k.key with _ | nb
    · rcases hck : c.key with _ | nc
      · simp [keyRel, relSpec, hbk, hck, RelOutcome.code]
      · simp [keyRel, relSpec, hbk, hck, RelOutcome.code]
    rcases hck : c.key with _ | nc
    · simp [keyRel, relSpec, hbk, hck, RelOutcome.code]
    obtain ⟨hnulb, hwfb⟩ := keyNameOk_props k nb hok1 hbk
    obtain ⟨hnulc, hwfc⟩ := keyNameOk_props c nc hok2 hck
    have hnbk : keyName k = nb := by simp [keyName, hbk]
    have hnck : keyName c = nc := by simp [keyName, hck]
    have hnul_k : '\x00' ∉ keyName k := by rw [hnbk]; exact hnulb
    have hnul_c : '\x00' ∉ keyName c := by rw [hnck]; exact hnulc
    have hwf_k : wfName (keyName k) = true := by rw [hnbk]; exact hwfb
    have hBel := keyIsBelow_eq_one_iff k c hnul_k hnul_c
    rw [hnbk, hnck] at hBel
    have hDir := keyIsDirectBelow_eq_one_iff k c hnul_k hnul_c hwf_k
    rw [hnbk, hnck] at hDir
    rw [hBel] at hDir
    have hcmp : keyCmp (some k) (some c) = if nb = nc then 0 else 1 := by
      rw [keyCmp, hnbk, hnck]
    have hU_k : keyIsUser (some k) = keyNameIsUser nb := by rw [keyIsUser, hbk]
    have hU_c : keyIsUser (some c) = keyNameIsUser nc := by rw [keyIsUser, hck]
    have hS_k : keyIsSystem (some k) = keyNameIsSystem nb := by rw [keyIsSystem, hbk]
    have hS_c : keyIsSystem (some c) = keyNameIsSystem nc := by rw [keyIsSystem, hck]
    simp only [keyRel, relSpec, hbk, hck]
    by_cases hsame : nb = nc
    · rw [if_pos (by rw [hcmp, if_pos hsame]), if_pos hsame]
      rfl
    rw [if_neg (by rw [hcmp, if_neg hsame]; norm_num), if_neg hsame]
    by_cases hdc : specBelow nb nc ∧ (segs nc).length = (segs nb).length + 1
    · rw [if_pos (by rw [hDir.mpr hdc]; norm_num), if_pos hdc]
      rfl
    have hDir0 : keyIsDirectBelow (some k) (some c) = 0 := by
      rcases keyIsDirectBelow_range k c with h | h
      · exact h
      · exact absurd (hDir.mp h) hdc
    rw [if_neg (by rw [hDir0]; norm_num), if_neg hdc]
    by_cases hbel : specBelow nb nc
    · rw [if_pos (by rw [hBel.mpr hbel]; norm_num), if_pos hbel]
      rfl
    have hBel0 : keyIsBelow (some k) (some c) = 0 := by
      rcases keyIsBelow_some_range k c with h | h
      · exact h
      · exact absurd (hBel.mp h) hbel
    rw [if_neg (by rw [hBel0]; norm_num), if_neg hbel]
    have hcondU : (keyIsUser (some k) ≠ 0 ∧ keyIsUser (some c) ≠ 0) ↔
        (nsOf nb = ElektraNamespace.user ∧ nsOf nc = ElektraNamespace.user) := by
      rw [hU_k, hU_c]
      exact and_congr (keyNameIsUser_ne_zero_iff nb) (keyNameIsUser_ne_zero_iff nc)
    have hcondS : (keyIsSystem (some k) ≠ 0 ∧ keyIsSystem (some c) ≠ 0) ↔
        (nsOf nb = ElektraNamespace.system ∧ nsOf nc = ElektraNamespace.system) := by
      rw [hS_k, hS_c]
      exact and_congr (keyNameIsSystem_ne_zero_iff nb) (keyNameIsSystem_ne_zero_iff nc)
    by_cases huu : nsOf nb = ElektraNamespace.user ∧ nsOf nc = ElektraNamespace.user
    · rw [if_pos (hcondU.mpr huu), if_pos (Or.inl huu)]
      rfl
    rw [if_neg (fun hx => huu (hcondU.mp hx))]
    by_cases hss : nsOf nb = ElektraNamespace.system ∧ nsOf nc = ElektraNamespace.system
    · rw [if_pos (hcondS.mpr hss), if_pos (Or.inr hss)]
      rfl
    rw [if_neg (fun hx => hss (hcondS.mp hx)), if_neg (by rintro (h | h); exacts [huu h, hss h])]
    rfl

/-- Witness for C1 at the spec's concrete scenario `user/sw/app` versus
`user/sw/app/folder/key` (a descendant, code 2). -/
theorem keyRel_matches_relSpec_witness :
    keyRel (some ⟨some "user/sw/app".toList, 0, [], [], [], [], 0, 0, 0⟩)
        (some ⟨some "user/sw/app/folder/key".toList, 0, [], [], [], [], 0, 0, 0⟩) =
      (relSpec (some ⟨some "user/sw/app".toList, 0, [], [], [], [], 0, 0, 0⟩)
        (some ⟨some "user/sw/app/folder/key".toList, 0, [], [], [], [], 0, 0, 0⟩)).code :=
  keyRel_matches_relSpec
    (some ⟨some "user/sw/app".toList, 0, [], [], [], [], 0, 0, 0⟩)
    (some ⟨some "user/sw/app/folder/key".toList, 0, [], [], [], [], 0, 0, 0⟩)
    (by decide) (by decide)

theorem keyIsBelowOrSame_some (k c : Key) :
    keyIsBelowOrSame (some k) (some c) =
      if keyIsBelow (some k) (some c) ≠ 0 then 1
      else if keyName k = keyName c then 1 else 0 := rfl

theorem keyIsDirectBelow_some (k c : Key) :
    keyIsDirectBelow (some k) (some c) =
      if keyIsBelow (some k) (some c) = 0 then 0
      else if (unameOf (keyName k)).length +
          ((unameOf (keyName c)).drop (unameOf (keyName k)).length).findIdx (fun x => x == '\x00')
          = (unameOf (keyName c)).length - 1 then 1 else 0 := rfl

theorem keyIsBelowOrSame_range (k c : Key) :
    keyIsBelowOrSame (some k) (some c) = 0 ∨ keyIsBelowOrSame (some k) (some c) = 1 := by
  rw [keyIsBelowOrSame_some]
  split
  · exact Or.inr rfl
  split
  · exact Or.inr rfl
  · exact Or.inl rfl

/-! ## Claim theorems: error handling of the relation operations -/

/-- A concrete non-NULL key whose name pointer is NULL. -/
def namelessKey : Key := ⟨none, 0, [], [], [], [], 0, 0, 0⟩

/-- C3 counterexample: keyIsUser on a non-NULL key with an absent name returns
0, not the invalid signal -1, refuting the claim that every operation returns
-1 whenever an argument has an empty/absent name. -/
theorem keyIsUser_nameless_not_invalid :
    keyIsUser (some namelessKey) = 0 ∧ ¬ keyIsUser (some namelessKey) = -1 := by
  exact ⟨rfl, by decide⟩

/-- C3 amended: every operation returns -1 exactly for NULL pointer
arguments; keyRel additionally returns -1 when either key's name is absent; a
non-NULL key with an absent name is not signalled by the other operations: the
namespace classifiers return 0 (distinct from -1) for it, and the three
below-tests return only 0 or 1 on non-NULL keys and are functions of the
keys' `keyName`, which substitutes the empty name for an absent one, so a
nameless key behaves exactly like a key with the empty name. -/
theorem relation_ops_null_handling :
    (∀ x : Option Key,
      keyIsBelow none x = -1 ∧ keyIsBelow x none = -1 ∧
      keyIsBelowOrSame none x = -1 ∧ keyIsBelowOrSame x none = -1 ∧
      keyIsDirectBelow none x = -1 ∧ keyIsDirectBelow x none = -1 ∧
      keyRel none x = -1 ∧ keyRel x none = -1) ∧
    keyIsUser none = -1 ∧ keyIsSystem none = -1 ∧ keyIsSpec none = -1 ∧
    keyIsProc none = -1 ∧ keyIsDir none = -1 ∧
    (∀ k : Key, k.key = none →
      keyIsUser (some k) = 0 ∧ keyIsSystem (some k) = 0 ∧ keyIsSpec (some k) = 0 ∧
      keyIsProc (some k) = 0 ∧ keyIsDir (some k) = 0 ∧
      (∀ x : Option Key, keyRel (some k) x = -1 ∧ keyRel x (some k) = -1)) ∧
    ((-1 : Int) ≠ 0 ∧ (-1 : Int) ≠ 1) ∧
    (∀ k c : Key,
      (keyIsBelow (some k) (some c) = 0 ∨ keyIsBelow (some k) (some c) = 1) ∧
      (keyIsBelowOrSame (some k) (some c) = 0 ∨ keyIsBelowOrSame (some k) (some c) = 1) ∧
      (keyIsDirectBelow (some k) (some c) = 0 ∨ keyIsDirectBelow (some k) (some c) = 1)) ∧
    (∀ k : Key, k.key = none → keyName k = []) ∧
    (∀ k k2 c c2 : Key, keyName k = keyName k2 → keyName c = keyName c2 →
      keyIsBelow (some k) (some c) = keyIsBelow (some k2) (some c2) ∧
      keyIsBelowOrSame (some k) (some c) = keyIsBelowOrSame (some k2) (some c2) ∧
      keyIsDirectBelow (some k) (some c) = keyIsDirectBelow (some k2) (some c2)) := by
  refine ⟨?_, rfl, rfl, rfl, rfl, rfl, ?_, ⟨by decide, by decide⟩, ?_, ?_, ?_⟩
  · intro x
    cases x with
    | none => exact ⟨rfl, rfl, rfl, rfl, rfl, rfl, rfl, rfl⟩
    | some c => exact ⟨rfl, rfl, rfl, rfl, rfl, rfl, rfl, rfl⟩
  · intro k hk
    refine ⟨?_, ?_, ?_, ?_, ?_, ?_⟩
    · simp [keyIsUser, hk]
    · simp [keyIsSystem, hk]
    · simp [keyIsSpec, hk]
    · simp [keyIsProc, hk]
    · simp [keyIsDir, hk]
    · intro x
      cases x with
      | none => exact ⟨rfl, rfl⟩
      | some c =>
        constructor
        · simp only [keyRel, hk]
        · simp only [keyRel, hk]
          cases c.key <;> rfl
  · intro k c
    exact ⟨keyIsBelow_some_range k c, keyIsBelowOrSame_range k c, keyIsDirectBelow_range k c⟩
  · intro k hk
    simp [keyName, hk]
  · intro k k2 c c2 h1 h2
    have hb : keyIsBelow (some k) (some c) = keyIsBelow (some k2) (some c2) := by
      rw [keyIsBelow_some, keyIsBelow_some, h1, h2]
    refine ⟨hb, ?_, ?_⟩
    · rw [keyIsBelowOrSame_some, keyIsBelowOrSame_some, hb, h1, h2]
    · rw [keyIsDirectBelow_some, keyIsDirectBelow_some, hb, h1, h2]

/-- Witness for C3's amended theorem at the concrete nameless key. -/
theorem relation_ops_null_handling_witness :
    keyIsUser (some namelessKey) = 0 ∧ keyIsSystem (some namelessKey) = 0 ∧
    keyIsSpec (some namelessKey) = 0 ∧ keyIsProc (some namelessKey) = 0 ∧
    keyIsDir (some namelessKey) = 0 ∧
    (∀ x : Option Key, keyRel (some namelessKey) x = -1 ∧ keyRel x (some namelessKey) = -1) :=
  relation_ops_null_handling.2.2.2.2.2.2.1 namelessKey rfl

/-! ## Claim theorems: grow/shrink hysteresis of the containers -/

theorem shrink_inv (c size count : Nat) (hc : 1 ≤ c)
    (hinv : (c / 2 < count ∧ size = 2 * c) ∨ (count ≤ c / 2 ∧ size = c)) (hcpos : 0 < count) :
    (c / 2 < count - 1 ∧ shrinkCap c size (count - 1) = 2 * c) ∨
    (count - 1 ≤ c / 2 ∧ shrinkCap c size (count - 1) = c) := by
  rcases hinv with ⟨h1, h2⟩ | ⟨h1, h2⟩
  · subst h2
    by_cases h : count - 1 ≤ (2 * c) / 4
    · right
      refine ⟨by omega, ?_⟩
      rw [shrinkCap, if_pos ⟨by omega, h⟩]
      omega
    · left
      refine ⟨by omega, ?_⟩
      rw [shrinkCap, if_neg ?_]
      rintro ⟨_, hx⟩
      exact h hx
  · subst h2
    right
    refine ⟨by omega, ?_⟩
    rw [shrinkCap, if_neg ?_]
    rintro ⟨hlt, _⟩
    omega

theorem vpushN_minSize (n : Nat) : ∀ s : Vstack, (vpushN n s).minSize = s.minSize := by
  induction n with
  | zero => intro s; rfl
  | succ m ih => intro s; exact ih (elektraVstackPush s 42)

theorem vpushN_fill (c : Nat) : ∀ (j : Nat) (s : Vstack),
    s.size = c → s.data.length + j ≤ c →
    (vpushN j s).size = c ∧ (vpushN j s).data.length = s.data.length + j := by
  intro j
  induction j with
  | zero => intro s hs _; exact ⟨hs, rfl⟩
  | succ m ih =>
    intro s hs hlen
    have hne : ¬ s.data.length = s.size := by omega
    have hsz : (elektraVstackPush s 42).size = s.size := by
      show growCap s.size s.data.length = s.size
      rw [growCap, if_neg hne]
    have hdl : (elektraVstackPush s 42).data.length = s.data.length + 1 := rfl
    have hstep := ih (elektraVstackPush s 42) (by rw [hsz]; exact hs) (by rw [hdl]; omega)
    have h1 : vpushN (m + 1) s = vpushN m (elektraVstackPush s 42) := rfl
    rw [h1]
    refine ⟨hstep.1, ?_⟩
    rw [hstep.2, hdl]
    omega

theorem vpushN_add (a b : Nat) : ∀ s : Vstack, vpushN (a + b) s = vpushN b (vpushN a s) := by
  induction a with
  | zero => intro s; rw [Nat.zero_add]; rfl
  | succ m ih =>
    intro s
    have h1 : m + 1 + b = (m + b) + 1 := by omega
    rw [h1]
    show vpushN (m + b) (elektraVstackPush s 42) = vpushN b (vpushN m (elektraVstackPush s 42))
    exact ih (elektraVstackPush s 42)

theorem vpopN_inv (c : Nat) (hc : 1 ≤ c) : ∀ (j : Nat) (s : Vstack),
    s.minSize = c →
    ((c / 2 < s.data.length ∧ s.size = 2 * c) ∨ (s.data.length ≤ c / 2 ∧ s.size = c)) →
    j ≤ s.data.length →
    (vpopN j s).data.length = s.data.length - j ∧
    (vpopN j s).minSize = c ∧
    ((c / 2 < s.data.length - j ∧ (vpopN j s).size = 2 * c) ∨
     (s.data.length - j ≤ c / 2 ∧ (vpopN j s).size = c)) := by
  intro j
  induction j with
  | zero =>
    intro s hm hinv _
    have h0 : vpopN 0 s = s := rfl
    rw [h0]
    refine ⟨by omega, hm, ?_⟩
    simpa using hinv
  | succ i ih =>
    intro s hm hinv hj
    cases hdata : s.data with
    | nil => rw [hdata] at hj; simp at hj
    | cons d rest =>
      have hlen : s.data.length = rest.length + 1 := by rw [hdata]; rfl
      have hpop : elektraVstackPop s =
          some (d, ⟨shrinkCap c s.size rest.length, c, rest⟩) := by
        rw [elektraVstackPop, hdata, hm]
      have hstep : vpopN (i + 1) s = vpopN i ⟨shrinkCap c s.size rest.length, c, rest⟩ := by
        show (match elektraVstackPop s with
              | none => vpopN i s
              | some (_, s2) => vpopN i s2) = _
        rw [hpop]
      have hinv2 := shrink_inv c s.size s.data.length hc hinv (by omega)
      have hinv3 : (c / 2 < rest.length ∧ shrinkCap c s.size rest.length = 2 * c) ∨
          (rest.length ≤ c / 2 ∧ shrinkCap c s.size rest.length = c) := by
        have he : s.data.length - 1 = rest.length := by omega
        rw [he] at hinv2
        exact hinv2
      have happ := ih ⟨shrinkCap c s.size rest.length, c, rest⟩ rfl (by simpa using hinv3)
        (by simp; omega)
      rw [hstep]
      simp only at happ
      refine ⟨by rw [happ.1]; simp only [List.length_cons]; omega, happ.2.1, ?_⟩
      rcases happ.2.2 with ⟨ha, hb⟩ | ⟨ha, hb⟩
      · exact Or.inl ⟨by simp; omega, hb⟩
      · exact Or.inr ⟨by simp; omega, hb⟩

theorem vstack_capInv_run (ops : List VOp) : ∀ s : Vstack, 1 ≤ s.minSize →
    (∃ k, s.size = s.minSize * 2 ^ k) →
    (vrunOps ops s).minSize = s.minSize ∧
    (∃ k, (vrunOps ops s).size = s.minSize * 2 ^ k) := by
  induction ops with
  | nil => intro s _ hk; exact ⟨rfl, hk⟩
  | cons op r ih =>
    intro s hm hk
    obtain ⟨k, hk⟩ := hk
    cases op with
    | push d =>
      have h2 : (elektraVstackPush s d).minSize = s.minSize := rfl
      have hk2 : ∃ k2, (elektraVstackPush s d).size = s.minSize * 2 ^ k2 := by
        show ∃ k2, growCap s.size s.data.length = s.minSize * 2 ^ k2
        rw [growCap]
        by_cases hfull : s.data.length = s.size
        · refine ⟨k + 1, ?_⟩
          rw [if_pos hfull, hk, pow_succ]
          ring
        · refine ⟨k, ?_⟩
          rw [if_neg hfull, hk]
      obtain ⟨k2, hk2⟩ := hk2
      have hstep : vrunOps (VOp.push d :: r) s = vrunOps r (elektraVstackPush s d) := rfl
      rw [hstep]
      have hres := ih (elektraVstackPush s d) (by rw [h2]; exact hm) ⟨k2, by rw [h2]; exact hk2⟩
      rw [h2] at hres
      exact hres
    | pop =>
      cases hdata : s.data with
      | nil =>
        have hstep : vrunOps (VOp.pop :: r) s = vrunOps r s := by
          show (match elektraVstackPop s with
                | none => vrunOps r s
                | some (_, s2) => vrunOps r s2) = _
          rw [elektraVstackPop, hdata]
        rw [hstep]
        exact ih s hm ⟨k, hk⟩
      | cons d rest =>
        have hpop : elektraVstackPop s =
            some (d, { s with size := shrinkCap s.minSize s.size rest.length, data := rest }) := by
          rw [elektraVstackPop, hdata]
        have hstep : vrunOps (VOp.pop :: r) s =
            vrunOps r { s with size := shrinkCap s.minSize s.size rest.length, data := rest } := by
          show (match elektraVstackPop s with
                | none => vrunOps r s
                | some (_, s2) => vrunOps r s2) = _
          rw [hpop]
        rw [hstep]
        have hk2 : ∃ k2, shrinkCap s.minSize s.size rest.length = s.minSize * 2 ^ k2 := by
          rw [shrinkCap]
          by_cases hco : s.minSize < s.size ∧ rest.length ≤ s.size / 4
          · rw [if_pos hco]
            cases k with
            | zero =>
              exfalso
              rw [hk] at hco
              simp at hco
            | succ k3 =>
              refine ⟨k3, ?_⟩
              rw [hk, pow_succ, ← Nat.mul_assoc, Nat.mul_div_cancel _ (by norm_num)]
          · rw [if_neg hco]
            exact ⟨k, hk⟩
        obtain ⟨k2, hk2⟩ := hk2
        have := ih { s with size := shrinkCap s.minSize s.size rest.length, data := rest }
          (by simpa using hm) ⟨k2, by simpa using hk2⟩
        exact ⟨by simpa using this.1, by simpa using this.2⟩

theorem vstack_size_ge_min (ops : List VOp) (c : Nat) (hc : 1 ≤ c) :
    c ≤ (vrunOps ops (⟨c, c, []⟩ : Vstack)).size := by
  have h := vstack_capInv_run ops ⟨c, c, []⟩ (by simpa using hc)
    ⟨0, by simp⟩
  obtain ⟨k, hk⟩ := h.2
  simp at hk
  rw [hk]
  have : 1 ≤ 2 ^ k := Nat.one_le_two_pow
  calc c = c * 1 := by omega
  _ ≤ c * 2 ^ k := Nat.mul_le_mul_left c this

theorem siftUpF_length (cmp : Int → Int → Bool) (fuel : Nat) :
    ∀ (l : List Int) (i : Nat), (siftUpF cmp fuel l i).length = l.length := by
  induction fuel with
  | zero => intro l i; rfl
  | succ f ih =>
    intro l i
    show (if i = 0 then l
          else if cmp (l.getD i 0) (l.getD ((i - 1) / 2) 0) then
            siftUpF cmp f ((l.set ((i - 1) / 2) (l.getD i 0)).set i (l.getD ((i - 1) / 2) 0)) ((i - 1) / 2)
          else l).length = l.length
    split
    · rfl
    split
    · rw [ih]
      simp
    · rfl

theorem siftDownF_length (cmp : Int → Int → Bool) (fuel : Nat) :
    ∀ (l : List Int) (i : Nat), (siftDownF cmp fuel l i).length = l.length := by
  induction fuel with
  | zero => intro l i; rfl
  | succ f ih =>
    intro l i
    show (if l.length ≤ 2 * i + 1 then l
          else
            let c := if 2 * i + 2 < l.length ∧ cmp (l.getD (2 * i + 2) 0) (l.getD (2 * i + 1) 0)
              then 2 * i + 2 else 2 * i + 1
            if cmp (l.getD c 0) (l.getD i 0) then
              siftDownF cmp f ((l.set i (l.getD c 0)).set c (l.getD i 0)) c
            else l).length = l.length
    split
    · rfl
    · simp only
      split
      · split
        · rw [ih]; simp
        · rfl
      · split
        · rw [ih]; simp
        · rfl

theorem vheapInsert_size (h : Vheap) (d : Int) :
    (elektraVheapInsert h d).size = growCap h.size h.data.length := rfl

theorem vheapInsert_minSize (h : Vheap) (d : Int) :
    (elektraVheapInsert h d).minSize = h.minSize := rfl

theorem vheapInsert_comp (h : Vheap) (d : Int) :
    (elektraVheapInsert h d).comp = h.comp := rfl

theorem vheapInsert_length (h : Vheap) (d : Int) :
    (elektraVheapInsert h d).data.length = h.data.length + 1 := by
  show (siftUpF h.comp h.data.length (h.data ++ [d]) h.data.length).length = h.data.length + 1
  rw [siftUpF_length]
  simp

theorem vheapRemove_spec (h : Vheap) (x : Int) (xs : List Int) (hd : h.data = x :: xs) :
    ∃ h2 : Vheap, elektraVheapRemove h = some (x, h2) ∧
      h2.comp = h.comp ∧ h2.minSize = h.minSize ∧
      h2.data.length = xs.length ∧
      h2.size = shrinkCap h.minSize h.size xs.length := by
  obtain ⟨cp, sz, ms, data⟩ := h
  simp only at hd
  subst hd
  have hrest : (((x :: xs).set 0 ((x :: xs).getLast (by simp))).dropLast).length = xs.length := by
    simp
  refine ⟨⟨cp, shrinkCap ms sz
      (siftDownF cp (((x :: xs).set 0 ((x :: xs).getLast (by simp))).dropLast).length
        (((x :: xs).set 0 ((x :: xs).getLast (by simp))).dropLast) 0).length, ms,
      siftDownF cp (((x :: xs).set 0 ((x :: xs).getLast (by simp))).dropLast).length
        (((x :: xs).set 0 ((x :: xs).getLast (by simp))).dropLast) 0⟩, rfl, rfl, rfl, ?_, ?_⟩
  · show (siftDownF cp _ _ 0).length = xs.length
    rw [siftDownF_length]
    exact hrest
  · show shrinkCap ms sz _ = shrinkCap ms sz xs.length
    rw [siftDownF_length, hrest]

theorem vheapRemove_nil (h : Vheap) (hd : h.data = []) : elektraVheapRemove h = none := by
  obtain ⟨cp, sz, ms, data⟩ := h
  simp only at hd
  subst hd
  rfl

theorem hinsN_minSize (n : Nat) : ∀ h : Vheap, (hinsN n h).minSize = h.minSize := by
  induction n with
  | zero => intro h; rfl
  | succ m ih =>
    intro h
    show (hinsN m (elektraVheapInsert h 42)).minSize = h.minSize
    rw [ih (elektraVheapInsert h 42), vheapInsert_minSize]

theorem hinsN_fill (c : Nat) : ∀ (j : Nat) (h : Vheap),
    h.size = c → h.data.length + j ≤ c →
    (hinsN j h).size = c ∧ (hinsN j h).data.length = h.data.length + j := by
  intro j
  induction j with
  | zero => intro h hs _; exact ⟨hs, rfl⟩
  | succ m ih =>
    intro h hs hlen
    have hne : ¬ h.data.length = h.size := by omega
    have hsz : (elektraVheapInsert h 42).size = h.size := by
      rw [vheapInsert_size, growCap, if_neg hne]
    have hdl := vheapInsert_length h 42
    have hstep := ih (elektraVheapInsert h 42) (by rw [hsz]; exact hs) (by rw [hdl]; omega)
    have h1 : hinsN (m + 1) h = hinsN m (elektraVheapInsert h 42) := rfl
    rw [h1]
    refine ⟨hstep.1, ?_⟩
    rw [hstep.2, hdl]
    omega

theorem hinsN_add (a b : Nat) : ∀ h : Vheap, hinsN (a + b) h = hinsN b (hinsN a h) := by
  induction a with
  | zero => intro h; rw [Nat.zero_add]; rfl
  | succ m ih =>
    intro h
    have h1 : m + 1 + b = (m + b) + 1 := by omega
    rw [h1]
    show hinsN (m + b) (elektraVheapInsert h 42) = hinsN b (hinsN m (elektraVheapInsert h 42))
    exact ih (elektraVheapInsert h 42)

theorem hremN_inv (c : Nat) (hc : 1 ≤ c) : ∀ (j : Nat) (h : Vheap),
    h.minSize = c →
    ((c / 2 < h.data.length ∧ h.size = 2 * c) ∨ (h.data.length ≤ c / 2 ∧ h.size = c)) →
    j ≤ h.data.length →
    (hremN j h).data.length = h.data.length - j ∧
    (hremN j h).minSize = c ∧
    ((c / 2 < h.data.length - j ∧ (hremN j h).size = 2 * c) ∨
     (h.data.length - j ≤ c / 2 ∧ (hremN j h).size = c)) := by
  intro j
  induction j with
  | zero =>
    intro h hm hinv _
    have h0 : hremN 0 h = h := rfl
    rw [h0]
    refine ⟨by omega, hm, ?_⟩
    simpa using hinv
  | succ i ih =>
    intro h hm hinv hj
    cases hdata : h.data with
    | nil => rw [hdata] at hj; simp at hj
    | cons x xs =>
      obtain ⟨h2, hrem, hcomp, hms, hlen2, hsz2⟩ := vheapRemove_spec h x xs hdata
      have hstep : hremN (i + 1) h = hremN i h2 := by
        show (match elektraVheapRemove h with
              | none => hremN i h
              | some (_, h3) => hremN i h3) = _
        rw [hrem]
      have hlen : h.data.length = xs.length + 1 := by rw [hdata]; rfl
      have hinv2 := shrink_inv c h.size h.data.length hc hinv (by omega)
      have hinv3 : (c / 2 < h2.data.length ∧ h2.size = 2 * c) ∨
          (h2.data.length ≤ c / 2 ∧ h2.size = c) := by
        rw [hlen2, hsz2, hm]
        have he : h.data.length - 1 = xs.length := by omega
        rw [he] at hinv2
        exact hinv2
      have happ := ih h2 (by rw [hms, hm]) hinv3 (by rw [hlen2]; omega)
      rw [hstep]
      refine ⟨by rw [happ.1, hlen2]; simp only [List.length_cons]; omega, happ.2.1, ?_⟩
      rcases happ.2.2 with ⟨ha, hb⟩ | ⟨ha, hb⟩
      · exact Or.inl ⟨by rw [hlen2] at ha; simp only [List.length_cons]; omega, hb⟩
      · exact Or.inr ⟨by rw [hlen2] at ha; simp only [List.length_cons]; omega, hb⟩

theorem vheap_capInv_run (ops : List HOp) : ∀ h : Vheap, 1 ≤ h.minSize →
    (∃ k, h.size = h.minSize * 2 ^ k) →
    (hrunOps ops h).minSize = h.minSize ∧
    (∃ k, (hrunOps ops h).size = h.minSize * 2 ^ k) := by
  induction ops with
  | nil => intro h _ hk; exact ⟨rfl, hk⟩
  | cons op r ih =>
    intro h hm hk
    obtain ⟨k, hk⟩ := hk
    cases op with
    | ins d =>
      have h2 : (elektraVheapInsert h d).minSize = h.minSize := rfl
      have hk2 : ∃ k2, (elektraVheapInsert h d).size = h.minSize * 2 ^ k2 := by
        rw [vheapInsert_size, growCap]
        by_cases hfull : h.data.length = h.size
        · refine ⟨k + 1, ?_⟩
          rw [if_pos hfull, hk, pow_succ]
          ring
        · refine ⟨k, ?_⟩
          rw [if_neg hfull, hk]
      obtain ⟨k2, hk2⟩ := hk2
      have hstep : hrunOps (HOp.ins d :: r) h = hrunOps r (elektraVheapInsert h d) := rfl
      rw [hstep]
      have hres := ih (elektraVheapInsert h d) (by rw [h2]; exact hm) ⟨k2, by rw [h2]; exact hk2⟩
      rw [h2] at hres
      exact hres
    | rem =>
      cases hdata : h.data with
      | nil =>
        have hstep : hrunOps (HOp.rem :: r) h = hrunOps r h := by
          show (match elektraVheapRemove h with
                | none => hrunOps r h
                | some (_, h2) => hrunOps r h2) = _
          rw [vheapRemove_nil h hdata]
        rw [hstep]
        exact ih h hm ⟨k, hk⟩
      | cons x xs =>
        obtain ⟨h2, hrem, hcomp, hms, hlen2, hsz2⟩ := vheapRemove_spec h x xs hdata
        have hstep : hrunOps (HOp.rem :: r) h = hrunOps r h2 := by
          show (match elektraVheapRemove h with
                | none => hrunOps r h
                | some (_, h3) => hrunOps r h3) = _
          rw [hrem]
        rw [hstep]
        have hk2 : ∃ k2, h2.size = h.minSize * 2 ^ k2 := by
          rw [hsz2, shrinkCap]
          by_cases hco : h.minSize < h.size ∧ xs.length ≤ h.size / 4
          · rw [if_pos hco]
            cases k with
            | zero =>
              exfalso
              rw [hk] at hco
              simp at hco
            | succ k3 =>
              refine ⟨k3, ?_⟩
              rw [hk, pow_succ, ← Nat.mul_assoc, Nat.mul_div_cancel _ (by norm_num)]
          · rw [if_neg hco]
            exact ⟨k, hk⟩
        obtain ⟨k2, hk2⟩ := hk2
        have hres := ih h2 (by rw [hms]; exact hm) ⟨k2, by rw [hms]; exact hk2⟩
        rw [hms] at hres
        exact hres

theorem vheap_size_ge_min (ops : List HOp) (cmp : Int → Int → Bool) (c : Nat) (hc : 1 ≤ c) :
    c ≤ (hrunOps ops (⟨cmp, c, c, []⟩ : Vheap)).size := by
  have h := vheap_capInv_run ops ⟨cmp, c, c, []⟩ (by simpa using hc) ⟨0, by simp⟩
  obtain ⟨k, hk⟩ := h.2
  simp at hk
  rw [hk]
  have h1 : 1 ≤ 2 ^ k := Nat.one_le_two_pow
  calc c = c * 1 := by omega
  _ ≤ c * 2 ^ k := Nat.mul_le_mul_left c h1

theorem vpop1_push (s : Vstack) (d : Int) :
    vpopN 1 (elektraVstackPush s d) =
      ⟨shrinkCap s.minSize (growCap s.size s.data.length) s.data.length, s.minSize, s.data⟩ := rfl

/-- C8: for a GrowableStack or GrowableHeap initialised at capacity `c ≥ 1`,
the first `c` pushes/inserts leave the capacity at `c` and the `(c+1)`-st
doubles it to `2c` (exactly one doubling); popping/removing from there, the
capacity is `2c` exactly while more than `c/2` elements remain and `c`
afterwards, so on reaching `c/4` stored elements it has halved exactly once;
at that boundary an extra push/insert followed by a pop/remove changes no
capacity; and over arbitrary operation sequences the capacity never drops
below the initial capacity. -/
theorem growShrink_hysteresis (c : Nat) (hc : 1 ≤ c) :
    elektraVstackInit (c : Int) = some ⟨c, c, []⟩ ∧
    (∀ i, i ≤ c → (vpushN i ⟨c, c, []⟩).size = c) ∧
    (vpushN (c + 1) ⟨c, c, []⟩).size = 2 * c ∧
    (vpushN (c + 1) ⟨c, c, []⟩).data.length = c + 1 ∧
    (∀ j, j ≤ c + 1 →
      (vpopN j (vpushN (c + 1) ⟨c, c, []⟩)).data.length = c + 1 - j ∧
      (vpopN j (vpushN (c + 1) ⟨c, c, []⟩)).size = if c / 2 < c + 1 - j then 2 * c else c) ∧
    ((vpopN (c + 1 - c / 4) (vpushN (c + 1) ⟨c, c, []⟩)).data.length = c / 4 ∧
     (vpopN (c + 1 - c / 4) (vpushN (c + 1) ⟨c, c, []⟩)).size = c ∧
     (vpushN 1 (vpopN (c + 1 - c / 4) (vpushN (c + 1) ⟨c, c, []⟩))).size = c ∧
     (vpopN 1 (vpushN 1 (vpopN (c + 1 - c / 4) (vpushN (c + 1) ⟨c, c, []⟩)))).size = c) ∧
    (∀ ops : List VOp, c ≤ (vrunOps ops ⟨c, c, []⟩).size) ∧
    (∀ cmp : Int → Int → Bool,
      elektraVheapInit cmp (c : Int) = some ⟨cmp, c, c, []⟩ ∧
      (∀ i, i ≤ c → (hinsN i ⟨cmp, c, c, []⟩).size = c) ∧
      (hinsN (c + 1) ⟨cmp, c, c, []⟩).size = 2 * c ∧
      (hinsN (c + 1) ⟨cmp, c, c, []⟩).data.length = c + 1 ∧
      (∀ j, j ≤ c + 1 →
        (hremN j (hinsN (c + 1) ⟨cmp, c, c, []⟩)).data.length = c + 1 - j ∧
        (hremN j (hinsN (c + 1) ⟨cmp, c, c, []⟩)).size = if c / 2 < c + 1 - j then 2 * c else c) ∧
      ((hremN (c + 1 - c / 4) (hinsN (c + 1) ⟨cmp, c, c, []⟩)).data.length = c / 4 ∧
       (hremN (c + 1 - c / 4) (hinsN (c + 1) ⟨cmp, c, c, []⟩)).size = c ∧
       (hinsN 1 (hremN (c + 1 - c / 4) (hinsN (c + 1) ⟨cmp, c, c, []⟩))).size = c ∧
       (hremN 1 (hinsN 1 (hremN (c + 1 - c / 4) (hinsN (c + 1) ⟨cmp, c, c, []⟩)))).size = c) ∧
      (∀ ops : List HOp, c ≤ (hrunOps ops ⟨cmp, c, c, []⟩).size)) := by
  have hciNeg : ¬ ((c : Int) ≤ 0) := by
    simp only [not_le]
    exact_mod_cast hc
  -- Vstack: the first c pushes never resize
  have hfill : ∀ i, i ≤ c → (vpushN i (⟨c, c, []⟩ : Vstack)).size = c ∧
      (vpushN i (⟨c, c, []⟩ : Vstack)).data.length = i := by
    intro i hi
    have := vpushN_fill c i ⟨c, c, []⟩ rfl (by simpa using hi)
    simpa using this
  -- the (c+1)-st push doubles
  have hsplit : vpushN (c + 1) (⟨c, c, []⟩ : Vstack) =
      elektraVstackPush (vpushN c ⟨c, c, []⟩) 42 := by
    rw [vpushN_add c 1]
    rfl
  have hs1size : (vpushN (c + 1) (⟨c, c, []⟩ : Vstack)).size = 2 * c := by
    rw [hsplit]
    show growCap (vpushN c (⟨c, c, []⟩ : Vstack)).size (vpushN c (⟨c, c, []⟩ : Vstack)).data.length
        = 2 * c
    rw [(hfill c le_rfl).1, (hfill c le_rfl).2, growCap, if_pos rfl]
  have hs1len : (vpushN (c + 1) (⟨c, c, []⟩ : Vstack)).data.length = c + 1 := by
    rw [hsplit]
    show (42 :: (vpushN c (⟨c, c, []⟩ : Vstack)).data).length = c + 1
    rw [List.length_cons, (hfill c le_rfl).2]
  have hs1min : (vpushN (c + 1) (⟨c, c, []⟩ : Vstack)).minSize = c := by
    rw [vpushN_minSize]
  -- pop characterisation
  have hpopchar : ∀ j, j ≤ c + 1 →
      (vpopN j (vpushN (c + 1) ⟨c, c, []⟩)).data.length = c + 1 - j ∧
      (vpopN j (vpushN (c + 1) ⟨c, c, []⟩)).minSize = c ∧
      (vpopN j (vpushN (c + 1) ⟨c, c, []⟩)).size = if c / 2 < c + 1 - j then 2 * c else c := by
    intro j hj
    have hinv := vpopN_inv c hc j (vpushN (c + 1) ⟨c, c, []⟩) hs1min
      (Or.inl (by rw [hs1size, hs1len]; exact ⟨by omega, rfl⟩))
      (by rw [hs1len]; exact hj)
    rw [hs1len] at hinv
    refine ⟨hinv.1, hinv.2.1, ?_⟩
    by_cases hlt : c / 2 < c + 1 - j
    · rw [if_pos hlt]
      rcases hinv.2.2 with ⟨_, hb⟩ | ⟨ha, _⟩
      · exact hb
      · omega
    · rw [if_neg hlt]
      rcases hinv.2.2 with ⟨ha, _⟩ | ⟨_, hb⟩
      · omega
      · exact hb
  have hq4 : c / 4 ≤ c / 2 := Nat.div_le_div_left (by norm_num) (by norm_num)
  have hbdry := hpopchar (c + 1 - c / 4) (by omega)
  have hb_len : (vpopN (c + 1 - c / 4) (vpushN (c + 1) ⟨c, c, []⟩)).data.length = c / 4 := by
    rw [hbdry.1]
    omega
  have hb_size : (vpopN (c + 1 - c / 4) (vpushN (c + 1) ⟨c, c, []⟩)).size = c := by
    rw [hbdry.2.2, if_neg (by omega)]
  have hb_min : (vpopN (c + 1 - c / 4) (vpushN (c + 1) ⟨c, c, []⟩)).minSize = c := hbdry.2.1
  have hq4lt : c / 4 < c := Nat.div_lt_self (by omega) (by norm_num)
  have hb_push : (vpushN 1 (vpopN (c + 1 - c / 4) (vpushN (c + 1) ⟨c, c, []⟩))).size = c := by
    show growCap (vpopN (c + 1 - c / 4) (vpushN (c + 1) ⟨c, c, []⟩)).size
        (vpopN (c + 1 - c / 4) (vpushN (c + 1) ⟨c, c, []⟩)).data.length = c
    rw [hb_size, hb_len, growCap, if_neg (by omega)]
  have hb_pushpop : (vpopN 1 (vpushN 1 (vpopN (c + 1 - c / 4) (vpushN (c + 1) ⟨c, c, []⟩)))).size = c := by
    have h1 : vpushN 1 (vpopN (c + 1 - c / 4) (vpushN (c + 1) ⟨c, c, []⟩)) =
        elektraVstackPush (vpopN (c + 1 - c / 4) (vpushN (c + 1) ⟨c, c, []⟩)) 42 := rfl
    rw [h1, vpop1_push]
    show shrinkCap _ _ _ = c
    rw [hb_min, hb_size, hb_len, growCap, if_neg (by omega), shrinkCap,
      if_neg (by rintro ⟨hx, _⟩; omega)]
  refine ⟨?_, fun i hi => (hfill i hi).1, hs1size, hs1len,
    fun j hj => ⟨(hpopchar j hj).1, (hpopchar j hj).2.2⟩,
    ⟨hb_len, hb_size, hb_push, hb_pushpop⟩,
    fun ops => vstack_size_ge_min ops c hc, ?_⟩
  · rw [elektraVstackInit, if_neg hciNeg]
    simp
  intro cmp
  have hhfill : ∀ i, i ≤ c → (hinsN i (⟨cmp, c, c, []⟩ : Vheap)).size = c ∧
      (hinsN i (⟨cmp, c, c, []⟩ : Vheap)).data.length = i := by
    intro i hi
    have := hinsN_fill c i ⟨cmp, c, c, []⟩ rfl (by simpa using hi)
    simpa using this
  have hhsplit : hinsN (c + 1) (⟨cmp, c, c, []⟩ : Vheap) =
      elektraVheapInsert (hinsN c ⟨cmp, c, c, []⟩) 42 := by
    rw [hinsN_add c 1]
    rfl
  have hh1size : (hinsN (c + 1) (⟨cmp, c, c, []⟩ : Vheap)).size = 2 * c := by
    rw [hhsplit, vheapInsert_size, (hhfill c le_rfl).1, (hhfill c le_rfl).2, growCap, if_pos rfl]
  have hh1len : (hinsN (c + 1) (⟨cmp, c, c, []⟩ : Vheap)).data.length = c + 1 := by
    rw [hhsplit, vheapInsert_length, (hhfill c le_rfl).2]
  have hh1min : (hinsN (c + 1) (⟨cmp, c, c, []⟩ : Vheap)).minSize = c := by
    rw [hinsN_minSize]
  have hhpopchar : ∀ j, j ≤ c + 1 →
      (hremN j (hinsN (c + 1) ⟨cmp, c, c, []⟩)).data.length = c + 1 - j ∧
      (hremN j (hinsN (c + 1) ⟨cmp, c, c, []⟩)).minSize = c ∧
      (hremN j (hinsN (c + 1) ⟨cmp, c, c, []⟩)).size = if c / 2 < c + 1 - j then 2 * c else c := by
    intro j hj
    have hinv := hremN_inv c hc j (hinsN (c + 1) ⟨cmp, c, c, []⟩) hh1min
      (Or.inl (by rw [hh1size, hh1len]; exact ⟨by omega, rfl⟩))
      (by rw [hh1len]; exact hj)
    rw [hh1len] at hinv
    refine ⟨hinv.1, hinv.2.1, ?_⟩
    by_cases hlt : c / 2 < c + 1 - j
    · rw [if_pos hlt]
      rcases hinv.2.2 with ⟨_, hb⟩ | ⟨ha, _⟩
      · exact hb
      · omega
    · rw [if_neg hlt]
      rcases hinv.2.2 with ⟨ha, _⟩ | ⟨_, hb⟩
      · omega
      · exact hb
  have hhbdry := hhpopchar (c + 1 - c / 4) (by omega)
  have hhb_len : (hremN (c + 1 - c / 4) (hinsN (c + 1) ⟨cmp, c, c, []⟩)).data.length = c / 4 := by
    rw [hhbdry.1]
    omega
  have hhb_size : (hremN (c + 1 - c / 4) (hinsN (c + 1) ⟨cmp, c, c, []⟩)).size = c := by
    rw [hhbdry.2.2, if_neg (by omega)]
  have hhb_min : (hremN (c + 1 - c / 4) (hinsN (c + 1) ⟨cmp, c, c, []⟩)).minSize = c := hhbdry.2.1
  have hhb_ins : (hinsN 1 (hremN (c + 1 - c / 4) (hinsN (c + 1) ⟨cmp, c, c, []⟩))).size = c := by
    have h1 : hinsN 1 (hremN (c + 1 - c / 4) (hinsN (c + 1) ⟨cmp, c, c, []⟩)) =
        elektraVheapInsert (hremN (c + 1 - c / 4) (hinsN (c + 1) ⟨cmp, c, c, []⟩)) 42 := rfl
    rw [h1, vheapInsert_size, hhb_size, hhb_len, growCap, if_neg (by omega)]
  have hhb_insrem : (hremN 1 (hinsN 1 (hremN (c + 1 - c / 4) (hinsN (c + 1) ⟨cmp, c, c, []⟩)))).size = c := by
    have h1 : hinsN 1 (hremN (c + 1 - c / 4) (hinsN (c + 1) ⟨cmp, c, c, []⟩)) =
        elektraVheapInsert (hremN (c + 1 - c / 4) (hinsN (c + 1) ⟨cmp, c, c, []⟩)) 42 := rfl
    have hilen : (hinsN 1 (hremN (c + 1 - c / 4) (hinsN (c + 1) ⟨cmp, c, c, []⟩))).data.length
        = c / 4 + 1 := by
      rw [h1, vheapInsert_length, hhb_len]
    have himin : (hinsN 1 (hremN (c + 1 - c / 4) (hinsN (c + 1) ⟨cmp, c, c, []⟩))).minSize = c := by
      rw [h1, vheapInsert_minSize, hhb_min]
    cases hd : (hinsN 1 (hremN (c + 1 - c / 4) (hinsN (c + 1) ⟨cmp, c, c, []⟩))).data with
    | nil => rw [hd] at hilen; simp at hilen
    | cons x xs =>
      obtain ⟨h3, hrem, _, hms3, hlen3, hsz3⟩ :=
        vheapRemove_spec (hinsN 1 (hremN (c + 1 - c / 4) (hinsN (c + 1) ⟨cmp, c, c, []⟩))) x xs hd
      have hstep : hremN 1 (hinsN 1 (hremN (c + 1 - c / 4) (hinsN (c + 1) ⟨cmp, c, c, []⟩))) = h3 := by
        show (match elektraVheapRemove (hinsN 1 (hremN (c + 1 - c / 4) (hinsN (c + 1) ⟨cmp, c, c, []⟩))) with
              | none => hremN 0 (hinsN 1 (hremN (c + 1 - c / 4) (hinsN (c + 1) ⟨cmp, c, c, []⟩)))
              | some (_, h4) => hremN 0 h4) = h3
        rw [hrem]
        rfl
      have hxs : xs.length = c / 4 := by
        rw [hd] at hilen
        simp at hilen
        omega
      rw [hstep, hsz3, himin, hxs]
      rw [h1, vheapInsert_size, hhb_size, hhb_len, growCap, if_neg (by omega), shrinkCap,
        if_neg (by rintro ⟨hx, _⟩; omega)]
  refine ⟨?_, fun i hi => (hhfill i hi).1, hh1size, hh1len,
    fun j hj => ⟨(hhpopchar j hj).1, (hhpopchar j hj).2.2⟩,
    ⟨hhb_len, hhb_size, hhb_ins, hhb_insrem⟩,
    fun ops => vheap_size_ge_min ops cmp c hc⟩
  · rw [elektraVheapInit, if_neg hciNeg]
    simp

/-- Witness for C8 at the initial capacity 8. -/
theorem growShrink_hysteresis_witness :
    (vpushN 9 ⟨8, 8, []⟩ : Vstack).size = 16 ∧
    (vpopN 7 (vpushN 9 ⟨8, 8, []⟩) : Vstack).data.length = 2 ∧
    (vpopN 7 (vpushN 9 ⟨8, 8, []⟩) : Vstack).size = 8 :=
  have h := growShrink_hysteresis 8 (by norm_num)
  ⟨h.2.2.1, by
    have := h.2.2.2.2.2.1
    exact ⟨this.1, this.2.1⟩⟩

end Elektra
